import Mathlib

/-!
Verification development for the jjdiff repository.

The definitions below are a shallow embedding of the python sources in
src/jjdiff.  Conventions used throughout:

- Paths are modelled as strings.  The python code orders paths by their
  normalised part tuples; here paths are ordered by code points.  No theorem
  below depends on the relative order of two distinct paths, only on the
  order of entries sharing a path, so the collation difference is harmless.
- File bytes are modelled at the granularity the code observes them: a file
  that decodes as text is represented by its list of lines as produced by
  split_lines (a bijective image of the byte string), an undecodable file by
  its raw bytes.
- Python dicts used as rename tables are modelled as association lists with
  insert-at-front (last write wins) semantics.
- Python sets of refs are modelled as Finset Ref.
- heapq heaps are modelled as sorted lists: with pushes and pops interleaved
  as in the sources, the sequence of popped minima is identical.
- Similarity scores, computed as python floats, are modelled as exact
  fractions (numerator and denominator) compared by cross multiplication.
- Python generators are modelled as the lists they yield; unbounded while
  loops are modelled with an explicit fuel argument and an Option result,
  where running out of fuel (or a heap underflow, which raises in python)
  yields none.
-/

set_option maxRecDepth 8000

namespace Jjdiff

/-- Paths, modelled as plain strings (relative paths below a root). -/
abbrev Path := String

/-- Derived status of a line, from change.py. -/
inductive LineStatus where
  | added
  | deleted
  | changed
  | unchanged
deriving DecidableEq, Repr

/-- A diff line: optional old side and optional new side, from change.py. -/
structure Line where
  old : Option String
  new : Option String
deriving DecidableEq, Repr

/-- Line.status from change.py: added if old is absent, else deleted if new
is absent, else changed if the sides differ, else unchanged. -/
def Line.status (l : Line) : LineStatus :=
  match l.old with
  | none => .added
  | some o =>
    match l.new with
    | none => .deleted
    | some n => if o ≠ n then .changed else .unchanged

/-- Content of a regular file as the diff engine observes it: either the
line list produced by split_lines (for decodable text) or raw bytes. -/
inductive FileData where
  | text (lines : List String)
  | binary (bytes : List Nat)
deriving DecidableEq, Repr

/-- Content entry of a tree from diff.py: a regular file (the content handle
is resolved to the data it references) with its executable bit, or a
symlink with its target (the source field name is to, a reserved word here, renamed dest). -/
inductive Content where
  | file (data : FileData) (is_exec : Bool)
  | symlink (dest : Path)
deriving DecidableEq, Repr

/-- The Change union from change.py.  Binary changes carry the data their
content-path handles resolve to. -/
inductive Change where
  | rename (old_path new_path : Path)
  | changeMode (path : Path) (old_is_exec new_is_exec : Bool)
  | addFile (path : Path) (lines : List Line) (is_exec : Bool)
  | modifyFile (path : Path) (lines : List Line)
  | deleteFile (path : Path) (lines : List Line) (is_exec : Bool)
  | addBinary (path : Path) (content : FileData) (is_exec : Bool)
  | modifyBinary (path : Path) (old_content new_content : FileData)
  | deleteBinary (path : Path) (content : FileData) (is_exec : Bool)
  | addSymlink (path : Path) (dest : Path)
  | modifySymlink (path : Path) (old_dest new_dest : Path)
  | deleteSymlink (path : Path) (dest : Path)
deriving DecidableEq, Repr

/-- Refs from change.py: ChangeRef(change) or LineRef(change, line). -/
inductive Ref where
  | changeRef (change : Nat)
  | lineRef (change : Nat) (line : Nat)
deriving DecidableEq, Repr

/-- A python dict from paths to paths: association list, last write first. -/
abbrev RenameMap := List (Path × Path)

/-- renames.get(path, path): first binding wins, default is the key. -/
def RenameMap.get (m : RenameMap) (p : Path) : Path :=
  match m.find? (fun kv => kv.1 == p) with
  | some kv => kv.2
  | none => p

/-- reverse_lines from change.py: swap old and new on every line. -/
def reverse_lines (lines : List Line) : List Line :=
  lines.map fun l => ⟨l.new, l.old⟩

/-- Code point comparison of character lists (python string comparison). -/
def charsLt : List Char → List Char → Bool
  | [], [] => false
  | [], _ :: _ => true
  | _ :: _, [] => false
  | a :: as, b :: bs =>
    if a.toNat < b.toNat then true
    else if b.toNat < a.toNat then false
    else charsLt as bs

/-- Strict order on paths. -/
def pathLt (a b : Path) : Bool := charsLt a.data b.data

/-- Sort key of a change: (deprioritized, path, priority). -/
abbrev ChangeKey := Bool × Path × Nat

/-- Strict lexicographic order on change keys (False sorts before True). -/
def keyLt : ChangeKey → ChangeKey → Bool
  | (d1, p1, r1), (d2, p2, r2) =>
    if d1 ≠ d2 then !d1 && d2
    else if p1 ≠ p2 then pathLt p1 p2
    else decide (r1 < r2)

/-- Total preorder on change keys derived from keyLt. -/
def keyLe (a b : ChangeKey) : Bool := !(keyLt b a)

/-- is_change_deprioritized from change.py, parametric in the config-driven
predicate is_path_deprioritized (a pure function of the loaded config). -/
def is_change_deprioritized (dp : Path → Bool) : Change → Bool
  | .rename _ new_path => dp new_path
  | .changeMode path _ _ => dp path
  | .addFile path _ _ => dp path
  | .modifyFile path _ => dp path
  | .deleteFile path _ _ => dp path
  | .addBinary path _ _ => dp path
  | .modifyBinary path _ _ => dp path
  | .deleteBinary path _ _ => dp path
  | .addSymlink path _ => dp path
  | .modifySymlink path _ _ => dp path
  | .deleteSymlink path _ => dp path

/-- change_key from change.py: priority 0 for renames, 1 for mode changes,
2 for deletes, 3 for modifies, 4 for adds; keyed on the recorded path (the
old path for a rename). -/
def change_key (dp : Path → Bool) (c : Change) : ChangeKey :=
  match c with
  | .rename path _ => (is_change_deprioritized dp c, path, 0)
  | .changeMode path _ _ => (is_change_deprioritized dp c, path, 1)
  | .deleteFile path _ _ => (is_change_deprioritized dp c, path, 2)
  | .deleteBinary path _ _ => (is_change_deprioritized dp c, path, 2)
  | .deleteSymlink path _ => (is_change_deprioritized dp c, path, 2)
  | .modifyFile path _ => (is_change_deprioritized dp c, path, 3)
  | .modifyBinary path _ _ => (is_change_deprioritized dp c, path, 3)
  | .modifySymlink path _ _ => (is_change_deprioritized dp c, path, 3)
  | .addFile path _ _ => (is_change_deprioritized dp c, path, 4)
  | .addBinary path _ _ => (is_change_deprioritized dp c, path, 4)
  | .addSymlink path _ => (is_change_deprioritized dp c, path, 4)

/-- Ordered insertion for a stable sort. -/
def ordInsert (le : α → α → Bool) (x : α) : List α → List α
  | [] => [x]
  | y :: ys => if le x y then x :: y :: ys else y :: ordInsert le x ys

/-- Stable insertion sort, modelling the stable python list.sort. -/
def stableSort (le : α → α → Bool) (l : List α) : List α :=
  l.foldr (ordInsert le) []

/-- Comparison used by list.sort(key=change_key). -/
def changeLe (dp : Path → Bool) (a b : Change) : Bool :=
  keyLe (change_key dp a) (change_key dp b)

/-- Main loop of reverse_changes from change.py: walk the changes in order,
invert each one, rewrite recorded paths through the renames seen so far. -/
def reverse_changes_loop : List Change → List Change → RenameMap → List Change
  | [], acc, _ => acc
  | c :: rest, acc, renames =>
    match c with
    | .rename old_path new_path =>
      reverse_changes_loop rest (acc ++ [.rename new_path old_path])
        ((old_path, new_path) :: renames)
    | .changeMode path o n =>
      reverse_changes_loop rest (acc ++ [.changeMode (renames.get path) n o]) renames
    | .addFile path lines e =>
      reverse_changes_loop rest
        (acc ++ [.deleteFile (renames.get path) (reverse_lines lines) e]) renames
    | .modifyFile path lines =>
      reverse_changes_loop rest
        (acc ++ [.modifyFile (renames.get path) (reverse_lines lines)]) renames
    | .deleteFile path lines e =>
      reverse_changes_loop rest
        (acc ++ [.addFile (renames.get path) (reverse_lines lines) e]) renames
    | .addBinary path content e =>
      reverse_changes_loop rest
        (acc ++ [.deleteBinary (renames.get path) content e]) renames
    | .modifyBinary path oldc newc =>
      reverse_changes_loop rest
        (acc ++ [.modifyBinary (renames.get path) newc oldc]) renames
    | .deleteBinary path content e =>
      reverse_changes_loop rest
        (acc ++ [.addBinary (renames.get path) content e]) renames
    | .addSymlink path dest =>
      reverse_changes_loop rest
        (acc ++ [.deleteSymlink (renames.get path) dest]) renames
    | .modifySymlink path oldt newt =>
      reverse_changes_loop rest
        (acc ++ [.modifySymlink (renames.get path) newt oldt]) renames
    | .deleteSymlink path dest =>
      reverse_changes_loop rest
        (acc ++ [.addSymlink (renames.get path) dest]) renames

/-- reverse_changes from change.py: invert every change, then sort by the
canonical key. -/
def reverse_changes (dp : Path → Bool) (changes : List Change) : List Change :=
  stableSort (changeLe dp) (reverse_changes_loop changes [] [])

/-- write_lines from change.py writes the present new values separated by
a newline after each value but the last; join_lines is the string it
writes. -/
def join_lines : List String → String
  | [] => ""
  | [s] => s
  | s :: rest => s ++ "\n" ++ join_lines rest

/-- The full content written by write_lines for a list of lines. -/
def write_lines (lines : List Line) : String :=
  join_lines (lines.filterMap Line.new)

/-- Whether a written file ends in a newline byte. -/
def newline_terminated (s : String) : Bool := s.data.getLast? == some '\n'

/-! Binary chunker from diff.py. -/

def WINDOW_SIZE : Nat := 48

def WINDOW_MASK : Nat := (1 <<< 12) - 1

def HASH_BASE : Nat := 263

def HASH_MODULUS : Nat := (1 <<< 31) - 1

def HASH_BASE_POWER : Nat := HASH_BASE ^ WINDOW_SIZE % HASH_MODULUS

/-- Loop of get_binary_chunks: fuel is the number of loop steps left, so
that position i equals data.length - fuel; start is the start of the chunk
being accumulated; h is curr_hash.  The python subtraction can go negative
and python percent returns a value in [0, M); since h is less than M,
adding M before subtracting gives the same result in Nat. -/
def roll_hash (data : List Nat) (h i : Nat) : Nat :=
  let old_byte := data.getD (i - WINDOW_SIZE) 0
  let new_byte := data.getD i 0
  let h1 := (h + HASH_MODULUS - old_byte * HASH_BASE_POWER % HASH_MODULUS) % HASH_MODULUS
  (h1 * HASH_BASE + new_byte) % HASH_MODULUS

def chunk_loop (data : List Nat) : Nat → Nat → Nat → Nat → List (List Nat)
  | 0, _, start, _ =>
    if start < data.length then [data.drop start] else []
  | fuel + 1, h, start, i =>
    if h &&& WINDOW_MASK = 0 then
      ((data.drop start).take (i - start)) :: chunk_loop data fuel (roll_hash data h i) i (i + 1)
    else
      chunk_loop data fuel (roll_hash data h i) start (i + 1)

/-- get_binary_chunks from diff.py, on the bytes the mmap exposes. -/
def get_binary_chunks (data : List Nat) : List (List Nat) :=
  if data.length ≤ WINDOW_SIZE then [data]
  else
    let h0 := (List.range WINDOW_SIZE).foldl
      (fun h i => (h * HASH_BASE + data.getD i 0) % HASH_MODULUS) 0
    chunk_loop data (data.length - WINDOW_SIZE) h0 0 WINDOW_SIZE

/-- The polynomial hash of the window of WINDOW_SIZE bytes ending at
position i (exclusive), as described by the specification of the chunker;
this is the spec side of claim C8, to be compared with the hash the code
maintains. -/
def spec_window_hash (data : List Nat) (i : Nat) : Nat :=
  ((data.drop (i - WINDOW_SIZE)).take WINDOW_SIZE).foldl
    (fun h b => (h * HASH_BASE + b) % HASH_MODULUS) 0


/-! Supporting lemmas for the chunker and write_lines. -/

theorem ordInsert_perm (le : α → α → Bool) (x : α) :
    ∀ l : List α, (ordInsert le x l).Perm (x :: l)
  | [] => List.Perm.refl _
  | y :: ys => by
    simp only [ordInsert]
    by_cases h : le x y
    · simp [h]
    · simp only [h, if_neg]
      exact ((ordInsert_perm le x ys).cons y).trans (List.Perm.swap x y ys)

theorem stableSort_perm (le : α → α → Bool) :
    ∀ l : List α, (stableSort le l).Perm l
  | [] => List.Perm.refl _
  | x :: xs => by
    simp only [stableSort, List.foldr_cons]
    exact (ordInsert_perm le x _).trans ((stableSort_perm le xs).cons x)

theorem chunk_loop_spec (data : List Nat) (fuel : Nat) :
    ∀ (h start i : Nat), i + fuel = data.length → start < i →
      (chunk_loop data fuel h start i).flatten = data.drop start ∧
      ∀ c ∈ chunk_loop data fuel h start i, c ≠ [] := by
  induction fuel with
  | zero =>
    intro h start i hlen hlt
    have hs : start < data.length := by omega
    simp only [chunk_loop, if_pos hs]
    refine ⟨by simp, ?_⟩
    intro c hc
    simp only [List.mem_singleton] at hc
    subst hc
    simp only [ne_eq, List.drop_eq_nil_iff, not_le]
    omega
  | succ fuel ih =>
    intro h start i hlen hlt
    have hstep : (i + 1) + fuel = data.length := by omega
    have hdrop : (data.drop start).take (i - start) ++ data.drop i = data.drop start := by
      have h1 : data.drop i = (data.drop start).drop (i - start) := by
        rw [List.drop_drop]
        congr 1
        omega
      rw [h1, List.take_append_drop]
    simp only [chunk_loop]
    by_cases hz : h &&& WINDOW_MASK = 0
    · rw [if_pos hz]
      simp only [List.flatten_cons, List.mem_cons]
      obtain ⟨ih1, ih2⟩ := ih (roll_hash data h i) i (i + 1) hstep (Nat.lt_succ_self i)
      refine ⟨by rw [ih1, hdrop], ?_⟩
      rintro c (rfl | hc)
      · simp only [ne_eq, List.take_eq_nil_iff, List.drop_eq_nil_iff, not_or, not_le]
        omega
      · exact ih2 c hc
    · rw [if_neg hz]
      exact ih (roll_hash data h i) start (i + 1) hstep (by omega)

/-- C10: for non-empty input the chunks concatenate back to the input and
every chunk is non-empty (so they are consecutive in-order slices). -/
theorem c10_binary_chunks_cover (data : List Nat) (hne : data ≠ []) :
    (get_binary_chunks data).flatten = data ∧
    ∀ c ∈ get_binary_chunks data, c ≠ [] := by
  unfold get_binary_chunks
  by_cases hlen : data.length ≤ WINDOW_SIZE
  · simp [hlen, hne]
  · simp only [hlen, if_neg, not_false_iff]
    have := chunk_loop_spec data (data.length - WINDOW_SIZE)
      ((List.range WINDOW_SIZE).foldl
        (fun h i => (h * HASH_BASE + data.getD i 0) % HASH_MODULUS) 0)
      0 WINDOW_SIZE (by omega) (by norm_num [WINDOW_SIZE])
    simpa using this

/-- C10 witness at a concrete input. -/
theorem c10_binary_chunks_cover_witness :
    ([1, 2, 3] : List Nat) ≠ [] ∧
    ((get_binary_chunks [1, 2, 3]).flatten = [1, 2, 3] ∧
      ∀ c ∈ get_binary_chunks [1, 2, 3], c ≠ []) :=
  ⟨by decide, c10_binary_chunks_cover [1, 2, 3] (by decide)⟩

/-- Concrete input for claim C8: one nonzero byte followed by 49 zeros. -/
def c8_data : List Nat := 1 :: List.replicate 49 0

/-- C8: at input c8_data the spec-side window hash of the 48-byte window
ending at position 49 is zero under the mask, so the claimed
characterization demands a chunk boundary at 49; the code keeps a hash
whose rolling update subtracts old_byte * HASH_BASE_POWER before the
multiplication by HASH_BASE, so its value at 49 differs and no boundary is
emitted: the whole input comes back as a single chunk. -/
theorem c8_boundary_characterization_fails :
    spec_window_hash c8_data 49 &&& WINDOW_MASK = 0 ∧
    48 ≤ 49 ∧ 49 < c8_data.length ∧
    get_binary_chunks c8_data = [c8_data] := by decide

theorem join_lines_cons_cons (s s2 : String) (rest : List String) :
    join_lines (s :: s2 :: rest) = s ++ "\n" ++ join_lines (s2 :: rest) := rfl

theorem mem_of_getLast?_eq : ∀ (l : List α) (a : α), l.getLast? = some a → a ∈ l
  | [], a, h => by simp at h
  | [x], a, h => by
    simp only [List.getLast?_singleton, Option.some.injEq] at h
    simp [h]
  | x :: y :: t, a, h => by
    rw [List.getLast?_cons_cons] at h
    exact List.mem_cons_of_mem x (mem_of_getLast?_eq (y :: t) a h)

theorem getLast?_cons_of_ne (x : α) :
    ∀ l : List α, l ≠ [] → (x :: l).getLast? = l.getLast?
  | [], h => absurd rfl h
  | _ :: _, _ => List.getLast?_cons_cons

theorem join_lines_getLast :
    ∀ (s : String) (l : List String),
      (join_lines (s :: l)).data.getLast? =
        (match l.getLast? with
         | some t => if t.data = [] then some '\n' else t.data.getLast?
         | none => s.data.getLast?)
  | s, [] => by simp [join_lines]
  | s, t :: ts => by
    rw [join_lines_cons_cons, String.data_append, String.data_append,
      List.append_assoc, List.getLast?_append]
    have hnl : ("\n" : String).data = ['\n'] := rfl
    rw [hnl]
    have hne : ('\n' :: (join_lines (t :: ts)).data).getLast?.isSome := by
      simp [List.getLast?_isSome]
    rw [show (['\n'] ++ (join_lines (t :: ts)).data) = '\n' :: (join_lines (t :: ts)).data from rfl]
    rw [Option.or_of_isSome hne]
    have ihj := join_lines_getLast t ts
    cases ts with
    | nil =>
      simp only [join_lines, List.getLast?_singleton]
      cases ht : t.data with
      | nil => simp [ht]
      | cons c cs => simp [ht, List.getLast?_cons_cons]
    | cons r rs =>
      have hjne : (join_lines (t :: r :: rs)).data ≠ [] := by
        rw [join_lines_cons_cons, String.data_append, String.data_append, hnl]
        simp
      rw [getLast?_cons_of_ne _ _ hjne, ihj, List.getLast?_cons_cons]
      rcases hu : (r :: rs).getLast? with _ | u
      · simp [List.getLast?_eq_none_iff] at hu
      · rfl

theorem newline_terminated_join (l : List String)
    (hnl : ∀ s ∈ l, ('\n' : Char) ∉ s.data) :
    newline_terminated (join_lines l) = true ↔
      2 ≤ l.length ∧ l.getLast? = some "" := by
  cases l with
  | nil => simp [join_lines, newline_terminated]
  | cons s rest =>
    simp only [newline_terminated, beq_iff_eq, join_lines_getLast s rest]
    cases hr : rest.getLast? with
    | none =>
      have : rest = [] := List.getLast?_eq_none_iff.mp hr
      subst this
      simp only [List.length_singleton]
      constructor
      · intro hlast
        exact absurd (mem_of_getLast?_eq _ _ hlast) (hnl s (by simp))
      · rintro ⟨h2, -⟩
        omega
    | some t =>
      have htmem : t ∈ rest := mem_of_getLast?_eq _ _ hr
      have hrne : rest ≠ [] := by
        intro h
        subst h
        simp at hr
      have hlen2 : 2 ≤ (s :: rest).length := by
        cases rest with
        | nil => exact absurd rfl hrne
        | cons a b => simp
      have hlast : (s :: rest).getLast? = some t := by
        cases rest with
        | nil => exact absurd rfl hrne
        | cons a b => rw [List.getLast?_cons_cons, hr]
      by_cases ht : t.data = []
      · have : t = "" := by
          cases t
          simp at ht
          simp [ht]
        subst this
        simp only [if_pos ht, hlast, hlen2]
        simp
      · simp only [if_neg ht, hlast, hlen2, true_and]
        constructor
        · intro h
          exact absurd (mem_of_getLast?_eq _ _ h) (hnl t (List.mem_cons_of_mem s htmem))
        · intro h
          have : t = "" := by simpa using h
          subst this
          simp at ht


theorem join_lines_data :
    ∀ l : List String,
      (join_lines l).data = List.intercalate ['\n'] (l.map String.data)
  | [] => by simp [join_lines, List.intercalate]
  | [s] => by simp [join_lines, List.intercalate, List.intersperse]
  | s :: s2 :: rest => by
    rw [join_lines_cons_cons, String.data_append, String.data_append,
      join_lines_data (s2 :: rest)]
    simp [List.intercalate, List.intersperse]

/-- C9 counterexample: a single line whose new side is the non-empty string
foo is written as foo with no trailing newline, refuting that the file ends
with a newline exactly when the last present new value is non-empty. -/
theorem c9_counterexample :
    write_lines [Line.mk none (some "foo")] = "foo" ∧
    ([Line.mk none (some "foo")].filterMap Line.new).getLast? = some "foo" ∧
    "foo" ≠ "" ∧
    newline_terminated (write_lines [Line.mk none (some "foo")]) = false := by
  decide

/-- C9 amended: for newline-free line values (the invariant of lines built
by split_lines), write_lines writes the present new values joined by LF and
the result ends in a newline iff there are at least two present new values
and the last one is the empty string. -/
theorem c9_write_lines_newline (lines : List Line)
    (hnl : ∀ s ∈ lines.filterMap Line.new, ('\n' : Char) ∉ s.data) :
    (write_lines lines).data =
      List.intercalate ['\n'] ((lines.filterMap Line.new).map String.data) ∧
    (newline_terminated (write_lines lines) = true ↔
      2 ≤ (lines.filterMap Line.new).length ∧
      (lines.filterMap Line.new).getLast? = some "") :=
  ⟨join_lines_data _, newline_terminated_join _ hnl⟩

/-- C9 witness: two lines with present new sides, the last one empty; the
written file is b followed by a newline. -/
theorem c9_write_lines_newline_witness :
    (∀ s ∈ ([Line.mk (some "a") (some "b"), Line.mk (some "x") (some "")].filterMap
        Line.new), ('\n' : Char) ∉ s.data) ∧
    ((write_lines [Line.mk (some "a") (some "b"), Line.mk (some "x") (some "")]).data =
      List.intercalate ['\n']
        (([Line.mk (some "a") (some "b"), Line.mk (some "x") (some "")].filterMap
          Line.new).map String.data) ∧
    (newline_terminated (write_lines
        [Line.mk (some "a") (some "b"), Line.mk (some "x") (some "")]) = true ↔
      2 ≤ ([Line.mk (some "a") (some "b"), Line.mk (some "x") (some "")].filterMap
        Line.new).length ∧
      ([Line.mk (some "a") (some "b"), Line.mk (some "x") (some "")].filterMap
        Line.new).getLast? = some "")) :=
  ⟨by decide, c9_write_lines_newline _ (by decide)⟩



/-! Editor selection model, from editor.py. -/

/-- get_change_refs from editor.py: the refs a change contributes; the
ChangeRef is skipped for a ModifyFile (only its lines matter) and file
changes contribute one LineRef per line. -/
def get_change_refs (change_index : Nat) (change : Change) : List Ref :=
  (match change with
   | .modifyFile _ _ => []
   | _ => [Ref.changeRef change_index]) ++
  (match change with
   | .addFile _ lines _ => (List.range lines.length).map (Ref.lineRef change_index)
   | .modifyFile _ lines => (List.range lines.length).map (Ref.lineRef change_index)
   | .deleteFile _ lines _ => (List.range lines.length).map (Ref.lineRef change_index)
   | _ => [])

/-- get_all_refs from change.py: all refs of an enumerated change list. -/
def get_all_refs (changes : List Change) : List Ref :=
  changes.enum.flatMap fun ic => get_change_refs ic.1 ic.2

/-- Lookup in a python dict modelled as an association list with the most
recent binding first. -/
def assocFind (m : List (Path × Ref)) (p : Path) : Option Ref :=
  match m.find? (fun kv => kv.1 == p) with
  | some kv => some kv.2
  | none => none

/-- add_delete_add_dependencies from editor.py: an add on a path that an
earlier delete released depends on that delete; the deleted dict keeps the
latest delete per path.  Produces (dependant, dependency) pairs. -/
def delete_add_deps_loop : List Change → Nat → List (Path × Ref) → List (Ref × Ref)
  | [], _, _ => []
  | c :: rest, i, deleted =>
    match c with
    | .deleteFile path _ _ =>
      delete_add_deps_loop rest (i + 1) ((path, Ref.changeRef i) :: deleted)
    | .deleteBinary path _ _ =>
      delete_add_deps_loop rest (i + 1) ((path, Ref.changeRef i) :: deleted)
    | .deleteSymlink path _ =>
      delete_add_deps_loop rest (i + 1) ((path, Ref.changeRef i) :: deleted)
    | .addFile path _ _ =>
      (match assocFind deleted path with
       | some dep => [(Ref.changeRef i, dep)]
       | none => []) ++ delete_add_deps_loop rest (i + 1) deleted
    | .addBinary path _ _ =>
      (match assocFind deleted path with
       | some dep => [(Ref.changeRef i, dep)]
       | none => []) ++ delete_add_deps_loop rest (i + 1) deleted
    | .addSymlink path _ =>
      (match assocFind deleted path with
       | some dep => [(Ref.changeRef i, dep)]
       | none => []) ++ delete_add_deps_loop rest (i + 1) deleted
    | _ => delete_add_deps_loop rest (i + 1) deleted

/-- add_line_dependencies from editor.py: lines of an added file depend on
the file add; a file delete depends on each of its lines. -/
def line_deps (changes : List Change) : List (Ref × Ref) :=
  changes.enum.flatMap fun ic =>
    match ic.2 with
    | .addFile _ lines _ =>
      (List.range lines.length).map fun j => (Ref.lineRef ic.1 j, Ref.changeRef ic.1)
    | .deleteFile _ lines _ =>
      (List.range lines.length).map fun j => (Ref.changeRef ic.1, Ref.lineRef ic.1 j)
    | _ => []

/-- All dependency edges the Editor constructor records. -/
def dep_edges (changes : List Change) : List (Ref × Ref) :=
  delete_add_deps_loop changes 0 [] ++ line_deps changes

/-- include_dependencies as a function: the set of dependencies of a ref. -/
def include_dependencies (changes : List Change) (r : Ref) : Finset Ref :=
  ((dep_edges changes).filterMap fun e => if e.1 = r then some e.2 else none).toFinset

/-- include_dependants as a function: the set of dependants of a ref. -/
def include_dependants (changes : List Change) (r : Ref) : Finset Ref :=
  ((dep_edges changes).filterMap fun e => if e.2 = r then some e.1 else none).toFinset

/-- Cursor from editor.py (the end field of HunkCursor is named stop here,
end being a reserved word). -/
inductive Cursor where
  | changeCursor (change : Nat)
  | hunkCursor (change start stop : Nat)
  | lineCursor (change line : Nat)
deriving DecidableEq, Repr

/-- The refs select_cursor collects at the cursor position. -/
def cursor_refs (changes : List Change) : Cursor → Finset Ref
  | .changeCursor i =>
    (match changes.drop i with
     | c :: _ => (get_change_refs i c).toFinset
     | [] => ∅)
  | .hunkCursor i s e => ((List.range' s (e - s)).map (Ref.lineRef i)).toFinset
  | .lineCursor i j => {Ref.lineRef i j}

/-- The add branch while loop of select_cursor: each pass collects the
direct dependencies of the cursor refs that are not yet in new_refs and
stops when that set is empty.  Note the comprehension ranges over refs,
which the loop never updates. -/
def add_loop (deps : Ref → Finset Ref) (refs : Finset Ref) :
    Nat → Finset Ref → Finset Ref
  | 0, new_refs => new_refs
  | fuel + 1, new_refs =>
    let dependencies := refs.biUnion deps \ new_refs
    if dependencies = ∅ then new_refs
    else add_loop deps refs fuel (new_refs ∪ dependencies)

/-- The remove branch while loop of select_cursor: refs itself grows with
the dependants found, so this one is a genuine fixed point expansion. -/
def remove_loop (dependants : Ref → Finset Ref) :
    Nat → Finset Ref → Finset Ref
  | 0, refs => refs
  | fuel + 1, refs =>
    let ds := refs.biUnion dependants \ refs
    if ds = ∅ then refs
    else remove_loop dependants fuel (refs ∪ ds)

/-- Fuel large enough for both loops to reach their fixed points: every
element either loop can add is an edge endpoint, and each pass that does
not stop adds at least one element. -/
def select_fuel (changes : List Change) (refs : Finset Ref) : Nat :=
  2 * (dep_edges changes).length + refs.card + 2

/-- The set the add branch of select_cursor accumulates. -/
def dependency_expansion (changes : List Change) (refs new_refs : Finset Ref) :
    Finset Ref :=
  add_loop (include_dependencies changes) refs (select_fuel changes refs) new_refs

/-- The set the remove branch of select_cursor accumulates: the transitive
dependant closure of refs. -/
def dependant_closure (changes : List Change) (refs : Finset Ref) : Finset Ref :=
  remove_loop (include_dependants changes) (select_fuel changes refs) refs

/-- select_refs: the update select_cursor applies to the included set.  If
some cursor ref is missing from included, expand with dependencies, drop
the already included, and add; otherwise close under dependants, keep the
included, and remove. -/
def select_refs (changes : List Change) (included refs : Finset Ref) : Finset Ref :=
  let new_refs := refs \ included
  if new_refs = ∅ then
    included \ (dependant_closure changes refs ∩ included)
  else
    included ∪ (dependency_expansion changes refs new_refs \ included)

/-- select_cursor from editor.py, as its effect on the included set (the
cursor advance and the undo stack do not touch included). -/
def select_cursor (changes : List Change) (included : Finset Ref)
    (cursor : Cursor) : Finset Ref :=
  select_refs changes included (cursor_refs changes cursor)



/-- Concrete change list for claim C6: a delete of path p followed by an
add of path p, one line each. -/
def c6_changes : List Change :=
  [Change.deleteFile "p" [Line.mk (some "a") none] false,
   Change.addFile "p" [Line.mk none (some "b")] false]

/-- C6: toggling the single line of the add includes the line and the add
change (its direct dependency), but not the delete change the add depends
on, although that dependency edge exists: the add branch expands only one
level, not to the transitive closure, because its loop never enlarges the
set it iterates over. -/
theorem c6_toggle_misses_transitive_dependency :
    select_cursor c6_changes ∅ (Cursor.lineCursor 1 0) =
      {Ref.lineRef 1 0, Ref.changeRef 1} ∧
    Ref.changeRef 0 ∈ include_dependencies c6_changes (Ref.changeRef 1) ∧
    Ref.changeRef 0 ∉ select_cursor c6_changes ∅ (Cursor.lineCursor 1 0) := by
  decide

/-- Concrete change list for claim C7: a single added file with one line. -/
def c7_changes : List Change :=
  [Change.addFile "p" [Line.mk none (some "x")] false]

/-- C7 counterexample: toggling the line cursor twice starting from the
empty included set leaves the ChangeRef of the add included, so the
included set does not return to its initial value. -/
theorem c7_counterexample :
    select_cursor c7_changes
        (select_cursor c7_changes ∅ (Cursor.lineCursor 0 0))
        (Cursor.lineCursor 0 0) = {Ref.changeRef 0} ∧
    ({Ref.changeRef 0} : Finset Ref) ≠ (∅ : Finset Ref) := by
  decide

theorem remove_loop_extensive (dependants : Ref → Finset Ref) :
    ∀ (fuel : Nat) (refs : Finset Ref), refs ⊆ remove_loop dependants fuel refs
  | 0, refs => Finset.Subset.refl refs
  | fuel + 1, refs => by
    simp only [remove_loop]
    by_cases h : refs.biUnion dependants \ refs = ∅
    · rw [if_pos h]
    · rw [if_neg h]
      exact Finset.Subset.trans Finset.subset_union_left
        (remove_loop_extensive dependants fuel _)

theorem remove_loop_empty (dependants : Ref → Finset Ref) :
    ∀ fuel : Nat, remove_loop dependants fuel ∅ = ∅
  | 0 => rfl
  | fuel + 1 => by simp [remove_loop]

theorem add_loop_stable (deps : Ref → Finset Ref) (refs : Finset Ref)
    (fuel : Nat) (new_refs : Finset Ref)
    (h : refs.biUnion deps \ new_refs = ∅) :
    add_loop deps refs fuel new_refs = new_refs := by
  cases fuel with
  | zero => rfl
  | succ fuel => simp only [add_loop, h, if_pos]

theorem select_refs_double_restore (changes : List Change)
    (included refs : Finset Ref)
    (h1 : refs.biUnion (include_dependencies changes) ⊆ refs)
    (h2 : dependant_closure changes refs ∩ included ⊆ refs)
    (h3 : refs ∩ included = ∅ ∨ refs ⊆ included) :
    select_refs changes (select_refs changes included refs) refs = included := by
  by_cases hempty : refs = ∅
  · have hcl : dependant_closure changes refs = ∅ := by
      rw [hempty]
      exact remove_loop_empty _ _
    simp [select_refs, hempty, dependant_closure, remove_loop_empty]
  · have hsubcl : refs ⊆ dependant_closure changes refs :=
      remove_loop_extensive _ _ _
    rcases h3 with hdisj | hsub
    · -- Add first: the cursor refs are disjoint from included.
      have hdisj2 : Disjoint refs included := by
        rw [Finset.disjoint_left]
        intro a ha hb
        exact Finset.not_mem_empty a (hdisj ▸ Finset.mem_inter_of_mem ha hb)
      have hnew : refs \ included = refs :=
        Finset.sdiff_eq_self_iff_disjoint.mpr hdisj2
      have hexp : dependency_expansion changes refs (refs \ included) = refs := by
        rw [hnew]
        apply add_loop_stable
        rw [Finset.sdiff_eq_empty_iff_subset]
        exact h1
      have htog1 : select_refs changes included refs = included ∪ refs := by
        rw [select_refs]
        rw [if_neg (by rw [hnew]; exact hempty), hexp, hnew]
      have hsub2 : refs \ (included ∪ refs) = ∅ := by
        rw [Finset.sdiff_eq_empty_iff_subset]
        exact Finset.subset_union_right
      have hcl2 : dependant_closure changes refs ∩ (included ∪ refs) = refs := by
        apply Finset.Subset.antisymm
        · intro a ha
          rw [Finset.mem_inter, Finset.mem_union] at ha
          rcases ha with ⟨hacl, hainc | haref⟩
          · exact h2 (Finset.mem_inter_of_mem hacl hainc)
          · exact haref
        · intro a ha
          exact Finset.mem_inter_of_mem (hsubcl ha) (Finset.mem_union_right _ ha)
      rw [htog1, select_refs, if_pos hsub2, hcl2, Finset.union_sdiff_cancel_right]
      exact hdisj2.symm
    · -- Remove first: the cursor refs are all included.
      have hnew : refs \ included = ∅ := Finset.sdiff_eq_empty_iff_subset.mpr hsub
      have hcl1 : dependant_closure changes refs ∩ included = refs :=
        Finset.Subset.antisymm h2
          (fun a ha => Finset.mem_inter_of_mem (hsubcl ha) (hsub ha))
      have htog1 : select_refs changes included refs = included \ refs := by
        rw [select_refs, if_pos hnew, hcl1]
      have hnew2 : refs \ (included \ refs) = refs := by
        rw [Finset.sdiff_eq_self_iff_disjoint, Finset.disjoint_left]
        intro a ha hb
        exact (Finset.mem_sdiff.mp hb).2 ha
      have hexp2 : dependency_expansion changes refs (refs \ (included \ refs)) = refs := by
        rw [hnew2]
        apply add_loop_stable
        rw [Finset.sdiff_eq_empty_iff_subset]
        exact h1
      rw [htog1, select_refs, if_neg (by rw [hnew2]; exact hempty), hexp2, hnew2,
        Finset.sdiff_union_of_subset hsub]

/-- C7 amended: toggling the same cursor twice restores the included set
when the cursor refs are closed under direct dependencies, no previously
included ref outside the cursor refs is a transitive dependant of them,
and the cursor refs are either wholly included or disjoint from the
included set beforehand.  The counterexample violates the first condition
(the line ref of the added file depends on its change ref, which is not a
cursor ref). -/
theorem c7_double_toggle_restores (changes : List Change) (included : Finset Ref)
    (cursor : Cursor)
    (h1 : (cursor_refs changes cursor).biUnion (include_dependencies changes) ⊆
      cursor_refs changes cursor)
    (h2 : dependant_closure changes (cursor_refs changes cursor) ∩ included ⊆
      cursor_refs changes cursor)
    (h3 : cursor_refs changes cursor ∩ included = ∅ ∨
      cursor_refs changes cursor ⊆ included) :
    select_cursor changes (select_cursor changes included cursor) cursor = included := by
  have := select_refs_double_restore changes included (cursor_refs changes cursor)
    h1 h2 h3
  simpa [select_cursor] using this

/-- C7 amended witness: a ChangeCursor over an added file with the empty
included set satisfies the hypotheses, and the double toggle restores the
empty set. -/
theorem c7_double_toggle_restores_witness :
    ((cursor_refs c7_changes (Cursor.changeCursor 0)).biUnion
        (include_dependencies c7_changes) ⊆
      cursor_refs c7_changes (Cursor.changeCursor 0)) ∧
    (dependant_closure c7_changes (cursor_refs c7_changes (Cursor.changeCursor 0)) ∩
        (∅ : Finset Ref) ⊆
      cursor_refs c7_changes (Cursor.changeCursor 0)) ∧
    select_cursor c7_changes
        (select_cursor c7_changes ∅ (Cursor.changeCursor 0))
        (Cursor.changeCursor 0) = ∅ :=
  ⟨by decide, by decide,
    c7_double_toggle_restores c7_changes ∅ (Cursor.changeCursor 0)
      (by decide) (by decide) (Or.inl (by decide))⟩



/-! split_changes from change.py. -/

/-- The per-line filtering loop of split_changes for a file change at index
change_index: returns (old_to_sel_lines, old_to_sel_lines_changed,
sel_to_new_lines, sel_to_new_lines_changed). -/
def filter_split_lines (change_index : Nat) (refs : Finset Ref) :
    List Line → Nat → (List Line × Bool × List Line × Bool)
  | [], _ => ([], false, [], false)
  | line :: rest, i =>
    match filter_split_lines change_index refs rest (i + 1) with
    | (ol, oc, sl, sc) =>
      if line.status = .unchanged then
        (line :: ol, oc, line :: sl, sc)
      else if Ref.lineRef change_index i ∈ refs then
        (line :: ol, true,
         (match line.new with
          | some n => Line.mk (some n) (some n) :: sl
          | none => sl), sc)
      else
        ((match line.old with
          | some o => Line.mk (some o) (some o) :: ol
          | none => ol), oc,
         line :: sl, true)

/-- dataclasses.replace of the recorded path through the rename table, as
applied to unselected changes (a rename rewrites its old path). -/
def subst_path (r : RenameMap) : Change → Change
  | .rename old_path new_path => .rename (r.get old_path) new_path
  | .changeMode path o n => .changeMode (r.get path) o n
  | .addFile path lines e => .addFile (r.get path) lines e
  | .modifyFile path lines => .modifyFile (r.get path) lines
  | .deleteFile path lines e => .deleteFile (r.get path) lines e
  | .addBinary path c e => .addBinary (r.get path) c e
  | .modifyBinary path oc nc => .modifyBinary (r.get path) oc nc
  | .deleteBinary path c e => .deleteBinary (r.get path) c e
  | .addSymlink path d => .addSymlink (r.get path) d
  | .modifySymlink path od nd => .modifySymlink (r.get path) od nd
  | .deleteSymlink path d => .deleteSymlink (r.get path) d

/-- Main loop of split_changes from change.py.  A whole non-file change
goes to old_to_sel when its ChangeRef is selected (a selected rename is
recorded), otherwise to sel_to_new with its path rewritten.  File changes
are split per line and reshaped.  The two source asserts (which hold for
well-formed inputs) have no effect on the returned value and are elided. -/
def split_changes_loop :
    List Change → Nat → Finset Ref → List Change → List Change → RenameMap →
      (List Change × List Change)
  | [], _, _, old_acc, sel_acc, _ => (old_acc, sel_acc)
  | c :: rest, i, refs, old_acc, sel_acc, renames =>
    match c with
    | .rename old_path new_path =>
      if Ref.changeRef i ∈ refs then
        split_changes_loop rest (i + 1) refs (old_acc ++ [c]) sel_acc
          ((old_path, new_path) :: renames)
      else
        split_changes_loop rest (i + 1) refs old_acc
          (sel_acc ++ [subst_path renames c]) renames
    | .changeMode _ _ _ =>
      if Ref.changeRef i ∈ refs then
        split_changes_loop rest (i + 1) refs (old_acc ++ [c]) sel_acc renames
      else
        split_changes_loop rest (i + 1) refs old_acc
          (sel_acc ++ [subst_path renames c]) renames
    | .addBinary _ _ _ =>
      if Ref.changeRef i ∈ refs then
        split_changes_loop rest (i + 1) refs (old_acc ++ [c]) sel_acc renames
      else
        split_changes_loop rest (i + 1) refs old_acc
          (sel_acc ++ [subst_path renames c]) renames
    | .modifyBinary _ _ _ =>
      if Ref.changeRef i ∈ refs then
        split_changes_loop rest (i + 1) refs (old_acc ++ [c]) sel_acc renames
      else
        split_changes_loop rest (i + 1) refs old_acc
          (sel_acc ++ [subst_path renames c]) renames
    | .deleteBinary _ _ _ =>
      if Ref.changeRef i ∈ refs then
        split_changes_loop rest (i + 1) refs (old_acc ++ [c]) sel_acc renames
      else
        split_changes_loop rest (i + 1) refs old_acc
          (sel_acc ++ [subst_path renames c]) renames
    | .addSymlink _ _ =>
      if Ref.changeRef i ∈ refs then
        split_changes_loop rest (i + 1) refs (old_acc ++ [c]) sel_acc renames
      else
        split_changes_loop rest (i + 1) refs old_acc
          (sel_acc ++ [subst_path renames c]) renames
    | .modifySymlink _ _ _ =>
      if Ref.changeRef i ∈ refs then
        split_changes_loop rest (i + 1) refs (old_acc ++ [c]) sel_acc renames
      else
        split_changes_loop rest (i + 1) refs old_acc
          (sel_acc ++ [subst_path renames c]) renames
    | .deleteSymlink _ _ =>
      if Ref.changeRef i ∈ refs then
        split_changes_loop rest (i + 1) refs (old_acc ++ [c]) sel_acc renames
      else
        split_changes_loop rest (i + 1) refs old_acc
          (sel_acc ++ [subst_path renames c]) renames
    | .addFile path lines e =>
      match filter_split_lines i refs lines 0 with
      | (ol, _, sl, sc) =>
        if Ref.changeRef i ∈ refs then
          split_changes_loop rest (i + 1) refs
            (old_acc ++ [.addFile path ol e])
            (if sc then sel_acc ++ [.modifyFile (renames.get path) sl] else sel_acc)
            renames
        else
          split_changes_loop rest (i + 1) refs old_acc
            (sel_acc ++ [.addFile (renames.get path) sl e]) renames
    | .modifyFile path lines =>
      match filter_split_lines i refs lines 0 with
      | (ol, oc, sl, sc) =>
        split_changes_loop rest (i + 1) refs
          (if oc then old_acc ++ [.modifyFile path ol] else old_acc)
          (if sc then sel_acc ++ [.modifyFile (renames.get path) sl] else sel_acc)
          renames
    | .deleteFile path lines e =>
      match filter_split_lines i refs lines 0 with
      | (ol, oc, sl, _) =>
        if Ref.changeRef i ∈ refs then
          split_changes_loop rest (i + 1) refs
            (old_acc ++ [.deleteFile path ol e]) sel_acc renames
        else
          split_changes_loop rest (i + 1) refs
            (if oc then old_acc ++ [.modifyFile path ol] else old_acc)
            (sel_acc ++ [.deleteFile (renames.get path) sl e]) renames

/-- split_changes from change.py. -/
def split_changes (changes : List Change) (refs : Finset Ref) :
    List Change × List Change :=
  split_changes_loop changes 0 refs [] [] []

/-- Well-formedness of a single change, as the data-model invariants state:
added files contain only added lines, deleted files only deleted lines,
and a modified file has at least one non-unchanged line. -/
def change_wf : Change → Prop
  | .addFile _ lines _ => ∀ l ∈ lines, l.old = none
  | .deleteFile _ lines _ => ∀ l ∈ lines, l.new = none
  | .modifyFile _ lines => ∃ l ∈ lines, l.status ≠ .unchanged
  | _ => True

instance (c : Change) : Decidable (change_wf c) := by
  cases c <;> simp only [change_wf] <;> infer_instance



theorem filter_split_lines_all (ci : Nat) (R : Finset Ref) :
    ∀ (lines : List Line) (k : Nat),
      (∀ idx, idx < lines.length → Ref.lineRef ci (k + idx) ∈ R) →
      (filter_split_lines ci R lines k).1 = lines ∧
      (filter_split_lines ci R lines k).2.2.2 = false ∧
      ((filter_split_lines ci R lines k).2.1 = true ↔
        ∃ l ∈ lines, l.status ≠ LineStatus.unchanged)
  | [], k, _ => by simp [filter_split_lines]
  | line :: rest, k, h => by
    have hmem : Ref.lineRef ci k ∈ R := by
      have := h 0 (by simp)
      simpa using this
    have ih := filter_split_lines_all ci R rest (k + 1) (fun idx hidx => by
      have := h (idx + 1) (by simpa using hidx)
      rwa [show k + (idx + 1) = k + 1 + idx by omega] at this)
    rcases hrec : filter_split_lines ci R rest (k + 1) with ⟨ol, oc, sl, sc⟩
    rw [hrec] at ih
    dsimp only at ih
    simp only [filter_split_lines, hrec]
    by_cases hst : line.status = LineStatus.unchanged
    · rw [if_pos hst]
      dsimp only
      refine ⟨by rw [ih.1], ih.2.1, ?_⟩
      rw [ih.2.2]
      simp [hst]
    · rw [if_neg hst, if_pos hmem]
      dsimp only
      refine ⟨by rw [ih.1], ih.2.1, ?_⟩
      simp only [true_iff]
      exact ⟨line, by simp, hst⟩

theorem filter_split_lines_empty (ci : Nat) :
    ∀ (lines : List Line) (k : Nat),
      (filter_split_lines ci ∅ lines k).2.1 = false ∧
      (filter_split_lines ci ∅ lines k).2.2.1 = lines ∧
      ((filter_split_lines ci ∅ lines k).2.2.2 = true ↔
        ∃ l ∈ lines, l.status ≠ LineStatus.unchanged)
  | [], k => by simp [filter_split_lines]
  | line :: rest, k => by
    have ih := filter_split_lines_empty ci rest (k + 1)
    rcases hrec : filter_split_lines ci (∅ : Finset Ref) rest (k + 1) with ⟨ol, oc, sl, sc⟩
    rw [hrec] at ih
    dsimp only at ih
    simp only [filter_split_lines, hrec]
    by_cases hst : line.status = LineStatus.unchanged
    · rw [if_pos hst]
      dsimp only
      refine ⟨ih.1, by rw [ih.2.1], ?_⟩
      rw [ih.2.2]
      simp [hst]
    · rw [if_neg hst, if_neg (Finset.not_mem_empty _)]
      dsimp only
      refine ⟨ih.1, by rw [ih.2.1], ?_⟩
      simp only [true_iff]
      exact ⟨line, by simp, hst⟩

theorem split_changes_loop_empty :
    ∀ (cs : List Change) (i : Nat) (old_acc sel_acc : List Change) (r : RenameMap),
      (∀ c ∈ cs, change_wf c) →
      split_changes_loop cs i ∅ old_acc sel_acc r =
        (old_acc, sel_acc ++ cs.map (subst_path r))
  | [], i, old_acc, sel_acc, r, _ => by simp [split_changes_loop]
  | c :: rest, i, old_acc, sel_acc, r, hwf => by
    have hwfc : change_wf c := hwf c (List.mem_cons_self c rest)
    have hwfr : ∀ x ∈ rest, change_wf x := fun x hx => hwf x (List.mem_cons_of_mem c hx)
    have ihrec := fun sel2 => split_changes_loop_empty rest (i + 1) old_acc sel2 r hwfr
    cases c with
    | rename op np =>
      simp only [split_changes_loop, Finset.not_mem_empty, if_false, ihrec]
      simp [subst_path]
    | changeMode p o n =>
      simp only [split_changes_loop, Finset.not_mem_empty, if_false, ihrec]
      simp [subst_path]
    | addBinary p cc e =>
      simp only [split_changes_loop, Finset.not_mem_empty, if_false, ihrec]
      simp [subst_path]
    | modifyBinary p oc nc =>
      simp only [split_changes_loop, Finset.not_mem_empty, if_false, ihrec]
      simp [subst_path]
    | deleteBinary p cc e =>
      simp only [split_changes_loop, Finset.not_mem_empty, if_false, ihrec]
      simp [subst_path]
    | addSymlink p d =>
      simp only [split_changes_loop, Finset.not_mem_empty, if_false, ihrec]
      simp [subst_path]
    | modifySymlink p od nd =>
      simp only [split_changes_loop, Finset.not_mem_empty, if_false, ihrec]
      simp [subst_path]
    | deleteSymlink p d =>
      simp only [split_changes_loop, Finset.not_mem_empty, if_false, ihrec]
      simp [subst_path]
    | addFile p lines e =>
      simp only [split_changes_loop]
      rcases hfl : filter_split_lines i (∅ : Finset Ref) lines 0 with ⟨ol, oc, sl, sc⟩
      have hfe := filter_split_lines_empty i lines 0
      rw [hfl] at hfe
      dsimp only at hfe
      simp only [Finset.not_mem_empty, if_false, ihrec]
      rw [hfe.2.1]
      simp [subst_path]
    | modifyFile p lines =>
      simp only [split_changes_loop]
      rcases hfl : filter_split_lines i (∅ : Finset Ref) lines 0 with ⟨ol, oc, sl, sc⟩
      have hfe := filter_split_lines_empty i lines 0
      rw [hfl] at hfe
      dsimp only at hfe
      have hoc : oc = false := hfe.1
      have hsc : sc = true := hfe.2.2.mpr hwfc
      subst hoc hsc
      simp only [if_false, if_true, Bool.false_eq_true, ihrec]
      rw [hfe.2.1]
      simp [subst_path]
    | deleteFile p lines e =>
      simp only [split_changes_loop]
      rcases hfl : filter_split_lines i (∅ : Finset Ref) lines 0 with ⟨ol, oc, sl, sc⟩
      have hfe := filter_split_lines_empty i lines 0
      rw [hfl] at hfe
      dsimp only at hfe
      have hoc : oc = false := hfe.1
      subst hoc
      simp only [Finset.not_mem_empty, if_false, Bool.false_eq_true, ihrec]
      rw [hfe.2.1]
      simp [subst_path]

theorem split_changes_loop_all (R : Finset Ref) :
    ∀ (cs : List Change) (i : Nat) (old_acc sel_acc : List Change) (r : RenameMap),
      (∀ c ∈ cs, change_wf c) →
      (∀ (j : Nat) (c : Change), cs.get? j = some c →
        ∀ x ∈ get_change_refs (i + j) c, x ∈ R) →
      split_changes_loop cs i R old_acc sel_acc r = (old_acc ++ cs, sel_acc)
  | [], i, old_acc, sel_acc, r, _, _ => by simp [split_changes_loop]
  | c :: rest, i, old_acc, sel_acc, r, hwf, hmem => by
    have hwfc : change_wf c := hwf c (List.mem_cons_self c rest)
    have hwfr : ∀ x ∈ rest, change_wf x := fun x hx => hwf x (List.mem_cons_of_mem c hx)
    have href : ∀ x ∈ get_change_refs i c, x ∈ R := by
      have := hmem 0 c rfl
      simpa using this
    have hmemr : ∀ (j : Nat) (d : Change), rest.get? j = some d →
        ∀ x ∈ get_change_refs (i + 1 + j) d, x ∈ R := by
      intro j d hj x hx
      have := hmem (j + 1) d (by simpa using hj)
      rw [show i + (j + 1) = i + 1 + j by omega] at this
      exact this x hx
    have hcr : Ref.changeRef i ∈ R → True := fun _ => trivial
    have ihrec := fun old2 sel2 r2 =>
      split_changes_loop_all R rest (i + 1) old2 sel2 r2 hwfr hmemr
    have hline : ∀ lines : List Line,
        ((List.range lines.length).map (Ref.lineRef i) ⊆ get_change_refs i c →
          ∀ idx, idx < lines.length → Ref.lineRef i (0 + idx) ∈ R) := by
      intro lines hsub idx hidx
      rw [Nat.zero_add]
      exact href _ (hsub (List.mem_map.mpr ⟨idx, List.mem_range.mpr hidx, rfl⟩))
    cases c with
    | rename op np =>
      have hin : Ref.changeRef i ∈ R := href _ (by simp [get_change_refs])
      simp only [split_changes_loop, if_pos hin, ihrec]
      simp
    | changeMode p o n =>
      have hin : Ref.changeRef i ∈ R := href _ (by simp [get_change_refs])
      simp only [split_changes_loop, if_pos hin, ihrec]
      simp
    | addBinary p cc e =>
      have hin : Ref.changeRef i ∈ R := href _ (by simp [get_change_refs])
      simp only [split_changes_loop, if_pos hin, ihrec]
      simp
    | modifyBinary p oc nc =>
      have hin : Ref.changeRef i ∈ R := href _ (by simp [get_change_refs])
      simp only [split_changes_loop, if_pos hin, ihrec]
      simp
    | deleteBinary p cc e =>
      have hin : Ref.changeRef i ∈ R := href _ (by simp [get_change_refs])
      simp only [split_changes_loop, if_pos hin, ihrec]
      simp
    | addSymlink p d =>
      have hin : Ref.changeRef i ∈ R := href _ (by simp [get_change_refs])
      simp only [split_changes_loop, if_pos hin, ihrec]
      simp
    | modifySymlink p od nd =>
      have hin : Ref.changeRef i ∈ R := href _ (by simp [get_change_refs])
      simp only [split_changes_loop, if_pos hin, ihrec]
      simp
    | deleteSymlink p d =>
      have hin : Ref.changeRef i ∈ R := href _ (by simp [get_change_refs])
      simp only [split_changes_loop, if_pos hin, ihrec]
      simp
    | addFile p lines e =>
      have hin : Ref.changeRef i ∈ R := href _ (by simp [get_change_refs])
      have hlr := hline lines (by simp [get_change_refs])
      have hfa := filter_split_lines_all i R lines 0 hlr
      simp only [split_changes_loop]
      rcases hfl : filter_split_lines i R lines 0 with ⟨ol, oc, sl, sc⟩
      rw [hfl] at hfa
      dsimp only at hfa
      have hsc : sc = false := hfa.2.1
      subst hsc
      simp only [if_pos hin, Bool.false_eq_true, if_false, ihrec]
      rw [hfa.1]
      simp
    | modifyFile p lines =>
      have hlr := hline lines (by simp [get_change_refs])
      have hfa := filter_split_lines_all i R lines 0 hlr
      simp only [split_changes_loop]
      rcases hfl : filter_split_lines i R lines 0 with ⟨ol, oc, sl, sc⟩
      rw [hfl] at hfa
      dsimp only at hfa
      have hsc : sc = false := hfa.2.1
      have hoc : oc = true := hfa.2.2.mpr hwfc
      subst hsc hoc
      simp only [if_true, Bool.false_eq_true, if_false, ihrec]
      rw [hfa.1]
      simp
    | deleteFile p lines e =>
      have hin : Ref.changeRef i ∈ R := href _ (by simp [get_change_refs])
      have hlr := hline lines (by simp [get_change_refs])
      have hfa := filter_split_lines_all i R lines 0 hlr
      simp only [split_changes_loop]
      rcases hfl : filter_split_lines i R lines 0 with ⟨ol, oc, sl, sc⟩
      rw [hfl] at hfa
      dsimp only at hfa
      simp only [if_pos hin, ihrec]
      rw [hfa.1]
      simp

theorem subst_path_nil (c : Change) : subst_path [] c = c := by
  cases c <;> rfl

/-- Concrete change list whose only change is a ModifyFile with a single
unchanged line. -/
def c3_all_unchanged : List Change :=
  [Change.modifyFile "p" [Line.mk (some "a") (some "a")]]

/-- Concrete change list with a rename followed by a modification recorded
at the old path. -/
def c3_rename_modify : List Change :=
  [Change.rename "a" "b", Change.modifyFile "a" [Line.mk (some "x") (some "y")]]

/-- C3 counterexample: splitting against all refs drops a ModifyFile whose
lines are all unchanged, so the first component is not the input; and
splitting against the empty ref set applies no rename rewriting at all
(renames are recorded only when selected), so the second component is the
input unchanged, not the input with paths rewritten past the rename. -/
theorem c3_counterexample :
    split_changes c3_all_unchanged (get_all_refs c3_all_unchanged).toFinset ≠
      (c3_all_unchanged, []) ∧
    (split_changes c3_rename_modify ∅).2 = c3_rename_modify ∧
    (split_changes c3_rename_modify ∅).2 ≠
      [Change.rename "a" "b", Change.modifyFile "b" [Line.mk (some "x") (some "y")]] := by
  decide

/-- C3 amended: for change sets satisfying the data-model invariants on
file changes, split against the set of all refs returns the input and the
empty set, and split against the empty ref set returns the empty set and
the input unchanged (no rename rewriting happens, since rename rewriting
only applies renames that were selected into the first component). -/
theorem c3_split_full_and_empty (changes : List Change)
    (hwf : ∀ c ∈ changes, change_wf c) :
    split_changes changes (get_all_refs changes).toFinset = (changes, []) ∧
    split_changes changes ∅ = ([], changes) := by
  constructor
  · rw [split_changes, split_changes_loop_all _ changes 0 [] [] [] hwf ?hm]
    · simp
    case hm =>
      intro j c hj x hx
      rw [List.mem_toFinset, get_all_refs, List.mem_flatMap]
      refine ⟨(j, c), ?_, by simpa using hx⟩
      rw [List.mem_enum_iff_getElem?]
      simpa [← List.get?_eq_getElem?] using hj
  · rw [split_changes, split_changes_loop_empty changes 0 [] [] [] hwf]
    rw [List.map_congr_left fun c _ => subst_path_nil c]
    simp

/-- C3 witness: the rename plus modify change list is well formed, and both
split equalities hold for it. -/
theorem c3_split_full_and_empty_witness :
    (∀ c ∈ c3_rename_modify, change_wf c) ∧
    (split_changes c3_rename_modify (get_all_refs c3_rename_modify).toFinset =
      (c3_rename_modify, []) ∧
     split_changes c3_rename_modify ∅ = ([], c3_rename_modify)) :=
  ⟨by decide, c3_split_full_and_empty _ (by decide)⟩



/-! Order lemmas for the canonical sort, used by the reverse round trip. -/

theorem char_toNat_inj {a b : Char} (h : a.toNat = b.toNat) : a = b := by
  apply Char.eq_of_val_eq
  apply UInt32.eq_of_val_eq
  exact Fin.ext h

theorem charsLt_asymm : ∀ as bs, charsLt as bs = true → charsLt bs as = false
  | [], [] => by simp [charsLt]
  | [], _ :: _ => by simp [charsLt]
  | _ :: _, [] => by simp [charsLt]
  | a :: as, b :: bs => by
    simp only [charsLt]
    by_cases h1 : a.toNat < b.toNat
    · intro _
      rw [if_neg (by omega), if_pos h1]
    · rw [if_neg h1]
      by_cases h2 : b.toNat < a.toNat
      · simp [h2]
      · rw [if_neg h2, if_neg h1, if_neg h2]
        exact charsLt_asymm as bs

theorem charsLt_trans : ∀ as bs cs, charsLt as bs = true → charsLt bs cs = true →
    charsLt as cs = true
  | as, [], cs, h1, h2 => by
    cases as <;> simp [charsLt] at h1
  | as, _ :: _, [], h1, h2 => by simp [charsLt] at h2
  | [], b :: bs, c :: cs, h1, h2 => by simp [charsLt]
  | a :: as, b :: bs, c :: cs, h1, h2 => by
    simp only [charsLt] at h1 h2 ⊢
    by_cases hab : a.toNat < b.toNat
    · by_cases hbc : b.toNat < c.toNat
      · rw [if_pos (by omega)]
      · rw [if_neg hbc] at h2
        by_cases hcb : c.toNat < b.toNat
        · simp [hcb] at h2
        · have : b.toNat = c.toNat := by omega
          rw [if_pos (by omega)]
    · rw [if_neg hab] at h1
      by_cases hba : b.toNat < a.toNat
      · simp [hba] at h1
      · have hab2 : a.toNat = b.toNat := by omega
        rw [if_neg hba] at h1
        by_cases hbc : b.toNat < c.toNat
        · rw [if_pos (by omega)]
        · rw [if_neg hbc] at h2
          by_cases hcb : c.toNat < b.toNat
          · simp [hcb] at h2
          · rw [if_neg hcb] at h2
            rw [if_neg (by omega), if_neg (by omega)]
            exact charsLt_trans as bs cs h1 h2

theorem charsLt_conn : ∀ as bs, charsLt as bs = false → charsLt bs as = false → as = bs
  | [], [], _, _ => rfl
  | [], _ :: _, h1, _ => by simp [charsLt] at h1
  | _ :: _, [], _, h2 => by simp [charsLt] at h2
  | a :: as, b :: bs, h1, h2 => by
    simp only [charsLt] at h1 h2
    by_cases hab : a.toNat < b.toNat
    · simp [hab] at h1
    · by_cases hba : b.toNat < a.toNat
      · rw [if_pos hba] at h2
        simp at h2
      · rw [if_neg hab, if_neg hba] at h1
        rw [if_neg hba, if_neg hab] at h2
        have : a = b := char_toNat_inj (by omega)
        rw [this, charsLt_conn as bs h1 h2]

theorem pathLt_asymm {a b : Path} (h : pathLt a b = true) : pathLt b a = false :=
  charsLt_asymm _ _ h

theorem pathLt_trans {a b c : Path} (h1 : pathLt a b = true) (h2 : pathLt b c = true) :
    pathLt a c = true :=
  charsLt_trans _ _ _ h1 h2

theorem pathLt_conn {a b : Path} (h1 : pathLt a b = false) (h2 : pathLt b a = false) :
    a = b := by
  cases a
  cases b
  exact congrArg String.mk (charsLt_conn _ _ h1 h2)

theorem keyLt_asymm : ∀ {a b : ChangeKey}, keyLt a b = true → keyLt b a = false
  | (d1, p1, r1), (d2, p2, r2), h => by
    simp only [keyLt] at h ⊢
    by_cases hd : d1 = d2
    · subst hd
      rw [if_neg (by simp)] at h ⊢
      by_cases hp : p1 = p2
      · subst hp
        rw [if_neg (by simp)] at h ⊢
        simp at h ⊢
        omega
      · rw [if_pos hp] at h
        rw [if_pos (by exact fun hh => hp hh.symm)]
        exact pathLt_asymm h
    · rw [if_pos hd] at h
      rw [if_pos (by exact fun hh => hd hh.symm)]
      cases d1 <;> cases d2 <;> simp_all

theorem keyLt_trans : ∀ {a b c : ChangeKey}, keyLt a b = true → keyLt b c = true →
    keyLt a c = true
  | (d1, p1, r1), (d2, p2, r2), (d3, p3, r3), h1, h2 => by
    simp only [keyLt] at h1 h2 ⊢
    by_cases hd12 : d1 = d2
    · subst hd12
      rw [if_neg (by simp)] at h1
      by_cases hd23 : d1 = d3
      · subst hd23
        rw [if_neg (by simp)] at h2 ⊢
        by_cases hp12 : p1 = p2
        · subst hp12
          rw [if_neg (by simp)] at h1
          by_cases hp23 : p1 = p3
          · subst hp23
            rw [if_neg (by simp)] at h2 ⊢
            simp at h1 h2 ⊢
            omega
          · rw [if_pos hp23] at h2 ⊢
            exact h2
        · rw [if_pos hp12] at h1
          by_cases hp23 : p2 = p3
          · subst hp23
            rw [if_pos hp12]
            exact h1
          · rw [if_pos hp23] at h2
            have := pathLt_trans h1 h2
            have hp13 : p1 ≠ p3 := by
              intro hh
              subst hh
              rw [pathLt_asymm h2] at h1
              exact Bool.false_ne_true h1
            rw [if_pos hp13]
            exact this
      · rw [if_pos hd23]
        rw [if_pos (by exact fun hh => hd23 (by rw [hh]))] at h2
        exact h2
    · rw [if_pos hd12] at h1
      by_cases hd23 : d2 = d3
      · subst hd23
        rw [if_pos hd12]
        exact h1
      · rw [if_pos hd23] at h2
        cases d1 <;> cases d2 <;> cases d3 <;> simp_all

theorem keyLt_conn : ∀ {a b : ChangeKey}, keyLt a b = false → keyLt b a = false → a = b
  | (d1, p1, r1), (d2, p2, r2), h1, h2 => by
    simp only [keyLt] at h1 h2
    by_cases hd : d1 = d2
    · subst hd
      rw [if_neg (by simp)] at h1 h2
      by_cases hp : p1 = p2
      · subst hp
        rw [if_neg (by simp)] at h1 h2
        simp at h1 h2
        have : r1 = r2 := by omega
        rw [this]
      · rw [if_pos hp] at h1
        rw [if_pos (by exact fun hh => hp hh.symm)] at h2
        exact absurd (pathLt_conn h1 h2) hp
    · rw [if_pos hd] at h1
      rw [if_pos (by exact fun hh => hd hh.symm)] at h2
      cases d1 <;> cases d2 <;> simp_all

theorem keyLe_total (a b : ChangeKey) : keyLe a b = true ∨ keyLe b a = true := by
  simp only [keyLe, Bool.not_eq_true]
  by_cases h1 : keyLt b a = true
  · right
    rw [keyLt_asymm h1]
    rfl
  · left
    simpa using h1

theorem keyLe_trans {a b c : ChangeKey} (h1 : keyLe a b = true) (h2 : keyLe b c = true) :
    keyLe a c = true := by
  simp only [keyLe, Bool.not_eq_true] at h1 h2 ⊢
  by_cases hca : keyLt c a = true
  · by_cases hbc : keyLt b c = true
    · rw [keyLt_trans hbc hca] at h1
      exact absurd h1 (by simp)
    · by_cases hcb : keyLt c b = true
      · rw [hcb] at h2
        exact absurd h2 (by simp)
      · have : b = c := keyLt_conn (by simpa using hbc) (by simpa using hcb)
        subst this
        rw [hca] at h1
        exact absurd h1 (by simp)
  · simpa using hca

theorem ordInsert_pairwise (le : α → α → Bool)
    (htrans : ∀ {a b c : α}, le a b = true → le b c = true → le a c = true)
    (htotal : ∀ a b : α, le a b = true ∨ le b a = true) (x : α) :
    ∀ l : List α, List.Pairwise (le · · = true) l →
      List.Pairwise (le · · = true) (ordInsert le x l)
  | [], _ => by simp [ordInsert]
  | y :: ys, h => by
    rw [List.pairwise_cons] at h
    simp only [ordInsert]
    by_cases hxy : le x y = true
    · rw [if_pos hxy]
      refine List.Pairwise.cons ?_ (List.Pairwise.cons h.1 h.2)
      intro z hz
      rcases List.mem_cons.mp hz with rfl | hz2
      · exact hxy
      · exact htrans hxy (h.1 z hz2)
    · rw [if_neg hxy]
      refine List.Pairwise.cons ?_ (ordInsert_pairwise le htrans htotal x ys h.2)
      intro z hz
      have hyx : le y x = true := by
        rcases htotal x y with h1 | h1
        · exact absurd h1 hxy
        · exact h1
      have hperm := ordInsert_perm le x ys
      rcases List.mem_cons.mp (hperm.mem_iff.mp hz) with rfl | hz2
      · exact hyx
      · exact h.1 z hz2

theorem stableSort_pairwise (le : α → α → Bool)
    (htrans : ∀ {a b c : α}, le a b = true → le b c = true → le a c = true)
    (htotal : ∀ a b : α, le a b = true ∨ le b a = true) :
    ∀ l : List α, List.Pairwise (le · · = true) (stableSort le l)
  | [] => by simp [stableSort]
  | x :: xs => by
    simp only [stableSort, List.foldr_cons]
    exact ordInsert_pairwise le htrans htotal x _ (stableSort_pairwise le htrans htotal xs)



/-! Reverse round trip machinery for claim C2. -/

/-- The recorded path of a change (the old path for a rename). -/
def change_path : Change → Path
  | .rename a _ => a
  | .changeMode p _ _ => p
  | .addFile p _ _ => p
  | .modifyFile p _ => p
  | .deleteFile p _ _ => p
  | .addBinary p _ _ => p
  | .modifyBinary p _ _ => p
  | .deleteBinary p _ _ => p
  | .addSymlink p _ => p
  | .modifySymlink p _ _ => p
  | .deleteSymlink p _ => p

/-- The sort priority of a change, as change_key assigns it. -/
def change_priority : Change → Nat
  | .rename _ _ => 0
  | .changeMode _ _ _ => 1
  | .deleteFile _ _ _ => 2
  | .deleteBinary _ _ _ => 2
  | .deleteSymlink _ _ => 2
  | .modifyFile _ _ => 3
  | .modifyBinary _ _ _ => 3
  | .modifySymlink _ _ _ => 3
  | .addFile _ _ _ => 4
  | .addBinary _ _ _ => 4
  | .addSymlink _ _ => 4

/-- Whether a change is a rename. -/
def isRename : Change → Bool
  | .rename _ _ => true
  | _ => false

theorem change_key_eq (dp : Path → Bool) (c : Change) :
    change_key dp c = (is_change_deprioritized dp c, change_path c, change_priority c) := by
  cases c <;> rfl

theorem change_priority_pos (c : Change) (h : isRename c = false) :
    1 ≤ change_priority c := by
  cases c <;> simp [isRename, change_priority] at h ⊢

theorem is_change_deprioritized_nonrename (dp : Path → Bool) (c : Change)
    (h : isRename c = false) :
    is_change_deprioritized dp c = dp (change_path c) := by
  cases c <;> simp [isRename] at h ⊢ <;> rfl

/-- The (old path, new path) pairs of the renames of a change list. -/
def rename_pairs (cs : List Change) : List (Path × Path) :=
  cs.filterMap fun c =>
    match c with
    | .rename a b => some (a, b)
    | _ => none

/-- Old paths of the renames of a change list. -/
def rename_olds (cs : List Change) : List Path := (rename_pairs cs).map Prod.fst

/-- New paths of the renames of a change list. -/
def rename_news (cs : List Change) : List Path := (rename_pairs cs).map Prod.snd

theorem mem_rename_pairs {cs : List Change} {a b : Path} :
    (a, b) ∈ rename_pairs cs ↔ Change.rename a b ∈ cs := by
  rw [rename_pairs, List.mem_filterMap]
  constructor
  · rintro ⟨c, hc, hfc⟩
    cases c <;> simp_all
  · intro h
    exact ⟨Change.rename a b, h, rfl⟩

/-- The rename table the reverse loop has accumulated after a change list. -/
def sigma_full : RenameMap → List Change → RenameMap
  | m, [] => m
  | m, c :: rest =>
    match c with
    | .rename a b => sigma_full ((a, b) :: m) rest
    | _ => sigma_full m rest

theorem sigma_full_shape : ∀ (cs : List Change) (m : RenameMap),
    sigma_full m cs = (rename_pairs cs).reverse ++ m
  | [], m => by simp [sigma_full, rename_pairs]
  | c :: rest, m => by
    cases c with
    | rename a b =>
      rw [show sigma_full m (Change.rename a b :: rest) = sigma_full ((a, b) :: m) rest
          from rfl]
      rw [sigma_full_shape rest ((a, b) :: m)]
      simp [rename_pairs]
    | changeMode p o n =>
      rw [show sigma_full m (Change.changeMode p o n :: rest) = sigma_full m rest from rfl]
      rw [sigma_full_shape rest m]
      simp [rename_pairs]
    | addFile p l e =>
      rw [show sigma_full m (Change.addFile p l e :: rest) = sigma_full m rest from rfl]
      rw [sigma_full_shape rest m]
      simp [rename_pairs]
    | modifyFile p l =>
      rw [show sigma_full m (Change.modifyFile p l :: rest) = sigma_full m rest from rfl]
      rw [sigma_full_shape rest m]
      simp [rename_pairs]
    | deleteFile p l e =>
      rw [show sigma_full m (Change.deleteFile p l e :: rest) = sigma_full m rest from rfl]
      rw [sigma_full_shape rest m]
      simp [rename_pairs]
    | addBinary p d e =>
      rw [show sigma_full m (Change.addBinary p d e :: rest) = sigma_full m rest from rfl]
      rw [sigma_full_shape rest m]
      simp [rename_pairs]
    | modifyBinary p od nd =>
      rw [show sigma_full m (Change.modifyBinary p od nd :: rest) = sigma_full m rest
          from rfl]
      rw [sigma_full_shape rest m]
      simp [rename_pairs]
    | deleteBinary p d e =>
      rw [show sigma_full m (Change.deleteBinary p d e :: rest) = sigma_full m rest
          from rfl]
      rw [sigma_full_shape rest m]
      simp [rename_pairs]
    | addSymlink p d =>
      rw [show sigma_full m (Change.addSymlink p d :: rest) = sigma_full m rest from rfl]
      rw [sigma_full_shape rest m]
      simp [rename_pairs]
    | modifySymlink p od nd =>
      rw [show sigma_full m (Change.modifySymlink p od nd :: rest) = sigma_full m rest
          from rfl]
      rw [sigma_full_shape rest m]
      simp [rename_pairs]
    | deleteSymlink p d =>
      rw [show sigma_full m (Change.deleteSymlink p d :: rest) = sigma_full m rest
          from rfl]
      rw [sigma_full_shape rest m]
      simp [rename_pairs]

theorem renameMap_get_cons_ne (k v : Path) (rest : RenameMap) (p : Path) (h : k ≠ p) :
    RenameMap.get ((k, v) :: rest) p = RenameMap.get rest p := by
  rw [RenameMap.get, RenameMap.get, List.find?_cons_of_neg]
  simp [h]

theorem renameMap_get_cons_self (k v : Path) (rest : RenameMap) :
    RenameMap.get ((k, v) :: rest) k = v := by
  have h : List.find? (fun kv => kv.1 == k) ((k, v) :: rest) = some (k, v) :=
    List.find?_cons_of_pos _ (by simp)
  rw [RenameMap.get, h]

theorem renameMap_get_of_not_mem : ∀ (m : RenameMap) (p : Path),
    p ∉ m.map Prod.fst → m.get p = p
  | [], p, _ => rfl
  | (k, v) :: rest, p, h => by
    have hk : k ≠ p := fun hh => h (by simp [hh])
    rw [renameMap_get_cons_ne k v rest p hk]
    exact renameMap_get_of_not_mem rest p (fun hh => h (by simp [hh]))

theorem renameMap_get_of_mem_nodup : ∀ (m : RenameMap) (a b : Path),
    (a, b) ∈ m → (m.map Prod.fst).Nodup → m.get a = b
  | [], a, b, hmem, _ => by simp at hmem
  | (k, v) :: rest, a, b, hmem, hnd => by
    rw [List.map_cons, List.nodup_cons] at hnd
    rcases List.mem_cons.mp hmem with heq | hmem2
    · rw [Prod.mk.injEq] at heq
      obtain ⟨rfl, rfl⟩ := heq
      exact renameMap_get_cons_self a b rest
    · have hka : k ≠ a := by
        intro hh
        subst hh
        exact hnd.1 (List.mem_map.mpr ⟨(k, b), hmem2, rfl⟩)
      rw [renameMap_get_cons_ne _ _ _ _ hka]
      exact renameMap_get_of_mem_nodup rest a b hmem2 hnd.2

theorem renameMap_get_append_of_not_mem : ∀ (l m : RenameMap) (p : Path),
    p ∉ l.map Prod.fst → (l ++ m).get p = m.get p
  | [], m, p, _ => rfl
  | (k, v) :: rest, m, p, h => by
    have hk : k ≠ p := fun hh => h (by simp [hh])
    rw [List.cons_append, renameMap_get_cons_ne _ _ _ _ hk]
    exact renameMap_get_append_of_not_mem rest m p (fun hh => h (by simp [hh]))


/-- The pointwise inversion reverse_changes applies to one change, with the
full rename table: a rename is flipped; any other change is inverted and
its recorded path rewritten through the table. -/
def rev_one (full : RenameMap) : Change → Change
  | .rename a b => .rename b a
  | .changeMode p o n => .changeMode (full.get p) n o
  | .addFile p lines e => .deleteFile (full.get p) (reverse_lines lines) e
  | .modifyFile p lines => .modifyFile (full.get p) (reverse_lines lines)
  | .deleteFile p lines e => .addFile (full.get p) (reverse_lines lines) e
  | .addBinary p c e => .deleteBinary (full.get p) c e
  | .modifyBinary p oc nc => .modifyBinary (full.get p) nc oc
  | .deleteBinary p c e => .addBinary (full.get p) c e
  | .addSymlink p d => .deleteSymlink (full.get p) d
  | .modifySymlink p od nd => .modifySymlink (full.get p) nd od
  | .deleteSymlink p d => .addSymlink (full.get p) d

/-- A change list is rename-ordered when no change is recorded at a path
that a later rename still renames. -/
def ordered_renames : List Change → Bool
  | [] => true
  | c :: rest =>
    (match c with
     | .rename _ _ => true
     | _ => decide (change_path c ∉ rename_olds rest)) && ordered_renames rest

theorem sigma_full_get_skip (cs : List Change) (m : RenameMap) (p : Path)
    (h : p ∉ rename_olds cs) : (sigma_full m cs).get p = m.get p := by
  rw [sigma_full_shape]
  apply renameMap_get_append_of_not_mem
  intro hmem
  apply h
  rw [rename_olds]
  rcases List.mem_map.mp hmem with ⟨kv, hkv, hfst⟩
  exact List.mem_map.mpr ⟨kv, List.mem_reverse.mp hkv, hfst⟩

theorem reverse_changes_loop_map :
    ∀ (cs : List Change) (acc : List Change) (m : RenameMap),
      ordered_renames cs = true →
      reverse_changes_loop cs acc m = acc ++ cs.map (rev_one (sigma_full m cs))
  | [], acc, m, _ => by simp [reverse_changes_loop]
  | c :: rest, acc, m, h => by
    simp only [ordered_renames, Bool.and_eq_true] at h
    cases c with
    | rename a b =>
      rw [show reverse_changes_loop (Change.rename a b :: rest) acc m =
          reverse_changes_loop rest (acc ++ [Change.rename b a]) ((a, b) :: m) from rfl]
      rw [reverse_changes_loop_map rest _ _ h.2]
      simp [sigma_full, rev_one]
    | changeMode p o n =>
      have hget : (sigma_full m rest).get p = m.get p :=
        sigma_full_get_skip rest m p (by simpa [change_path] using h.1)
      rw [show reverse_changes_loop (Change.changeMode p o n :: rest) acc m =
          reverse_changes_loop rest (acc ++ [Change.changeMode (m.get p) n o]) m from rfl]
      rw [reverse_changes_loop_map rest _ _ h.2]
      simp [sigma_full, rev_one, hget]
    | addFile p lines e =>
      have hget : (sigma_full m rest).get p = m.get p :=
        sigma_full_get_skip rest m p (by simpa [change_path] using h.1)
      rw [show reverse_changes_loop (Change.addFile p lines e :: rest) acc m =
          reverse_changes_loop rest
            (acc ++ [Change.deleteFile (m.get p) (reverse_lines lines) e]) m from rfl]
      rw [reverse_changes_loop_map rest _ _ h.2]
      simp [sigma_full, rev_one, hget]
    | modifyFile p lines =>
      have hget : (sigma_full m rest).get p = m.get p :=
        sigma_full_get_skip rest m p (by simpa [change_path] using h.1)
      rw [show reverse_changes_loop (Change.modifyFile p lines :: rest) acc m =
          reverse_changes_loop rest
            (acc ++ [Change.modifyFile (m.get p) (reverse_lines lines)]) m from rfl]
      rw [reverse_changes_loop_map rest _ _ h.2]
      simp [sigma_full, rev_one, hget]
    | deleteFile p lines e =>
      have hget : (sigma_full m rest).get p = m.get p :=
        sigma_full_get_skip rest m p (by simpa [change_path] using h.1)
      rw [show reverse_changes_loop (Change.deleteFile p lines e :: rest) acc m =
          reverse_changes_loop rest
            (acc ++ [Change.addFile (m.get p) (reverse_lines lines) e]) m from rfl]
      rw [reverse_changes_loop_map rest _ _ h.2]
      simp [sigma_full, rev_one, hget]
    | addBinary p d e =>
      have hget : (sigma_full m rest).get p = m.get p :=
        sigma_full_get_skip rest m p (by simpa [change_path] using h.1)
      rw [show reverse_changes_loop (Change.addBinary p d e :: rest) acc m =
          reverse_changes_loop rest (acc ++ [Change.deleteBinary (m.get p) d e]) m
          from rfl]
      rw [reverse_changes_loop_map rest _ _ h.2]
      simp [sigma_full, rev_one, hget]
    | modifyBinary p od nd =>
      have hget : (sigma_full m rest).get p = m.get p :=
        sigma_full_get_skip rest m p (by simpa [change_path] using h.1)
      rw [show reverse_changes_loop (Change.modifyBinary p od nd :: rest) acc m =
          reverse_changes_loop rest (acc ++ [Change.modifyBinary (m.get p) nd od]) m
          from rfl]
      rw [reverse_changes_loop_map rest _ _ h.2]
      simp [sigma_full, rev_one, hget]
    | deleteBinary p d e =>
      have hget : (sigma_full m rest).get p = m.get p :=
        sigma_full_get_skip rest m p (by simpa [change_path] using h.1)
      rw [show reverse_changes_loop (Change.deleteBinary p d e :: rest) acc m =
          reverse_changes_loop rest (acc ++ [Change.addBinary (m.get p) d e]) m
          from rfl]
      rw [reverse_changes_loop_map rest _ _ h.2]
      simp [sigma_full, rev_one, hget]
    | addSymlink p d =>
      have hget : (sigma_full m rest).get p = m.get p :=
        sigma_full_get_skip rest m p (by simpa [change_path] using h.1)
      rw [show reverse_changes_loop (Change.addSymlink p d :: rest) acc m =
          reverse_changes_loop rest (acc ++ [Change.deleteSymlink (m.get p) d]) m
          from rfl]
      rw [reverse_changes_loop_map rest _ _ h.2]
      simp [sigma_full, rev_one, hget]
    | modifySymlink p od nd =>
      have hget : (sigma_full m rest).get p = m.get p :=
        sigma_full_get_skip rest m p (by simpa [change_path] using h.1)
      rw [show reverse_changes_loop (Change.modifySymlink p od nd :: rest) acc m =
          reverse_changes_loop rest (acc ++ [Change.modifySymlink (m.get p) nd od]) m
          from rfl]
      rw [reverse_changes_loop_map rest _ _ h.2]
      simp [sigma_full, rev_one, hget]
    | deleteSymlink p d =>
      have hget : (sigma_full m rest).get p = m.get p :=
        sigma_full_get_skip rest m p (by simpa [change_path] using h.1)
      rw [show reverse_changes_loop (Change.deleteSymlink p d :: rest) acc m =
          reverse_changes_loop rest (acc ++ [Change.addSymlink (m.get p) d]) m
          from rfl]
      rw [reverse_changes_loop_map rest _ _ h.2]
      simp [sigma_full, rev_one, hget]



theorem reverse_lines_involutive (lines : List Line) :
    reverse_lines (reverse_lines lines) = lines := by
  simp only [reverse_lines, List.map_map]
  conv_rhs => rw [← List.map_id lines]
  exact List.map_congr_left fun l _ => rfl

theorem isRename_rev_one (σ : RenameMap) (c : Change) :
    isRename (rev_one σ c) = isRename c := by
  cases c <;> rfl

theorem change_path_rev_one (σ : RenameMap) (c : Change) (h : isRename c = false) :
    change_path (rev_one σ c) = σ.get (change_path c) := by
  cases c <;> first | rfl | simp [isRename] at h

theorem rename_pairs_map_rev_one (σ : RenameMap) :
    ∀ cs : List Change,
      rename_pairs (cs.map (rev_one σ)) = (rename_pairs cs).map Prod.swap
  | [] => rfl
  | c :: rest => by
    cases c <;>
      simp [rename_pairs, rev_one, Prod.swap] <;>
      simpa [rename_pairs] using rename_pairs_map_rev_one σ rest

theorem keyLt_zero_lt (d : Bool) (p : Path) (r : Nat) (h : 1 ≤ r) :
    keyLt (d, p, 0) (d, p, r) = true := by
  simp [keyLt]
  omega

theorem change_key_rename (dp : Path → Bool) (a b : Path) :
    change_key dp (Change.rename a b) = (dp b, a, 0) := rfl

theorem ordered_renames_cons (c : Change) (rest : List Change) :
    ordered_renames (c :: rest) =
      ((isRename c || decide (change_path c ∉ rename_olds rest)) &&
        ordered_renames rest) := by
  cases c <;> rfl

/-- In a list sorted by the canonical order, where every non-rename change
recorded at the old path of a rename in the list has a strictly larger key
than that rename, no change precedes a rename of its own path. -/
theorem ordered_renames_of_sorted (dp : Path → Bool) :
    ∀ S : List Change, List.Pairwise (fun x y => changeLe dp x y = true) S →
      (∀ X ∈ S, isRename X = false → ∀ a b, Change.rename a b ∈ S →
        change_path X = a →
        keyLt (change_key dp (Change.rename a b)) (change_key dp X) = true) →
      ordered_renames S = true
  | [], _, _ => rfl
  | X :: rest, hpair, hstrict => by
    rw [List.pairwise_cons] at hpair
    rw [ordered_renames_cons, Bool.and_eq_true, Bool.or_eq_true]
    refine ⟨?_, ordered_renames_of_sorted dp rest hpair.2
      (fun Y hY hYnr a b hab hpath => hstrict Y (List.mem_cons_of_mem X hY) hYnr a b
        (List.mem_cons_of_mem X hab) hpath)⟩
    cases hX : isRename X with
    | true => exact Or.inl rfl
    | false =>
      right
      rw [decide_eq_true_eq]
      intro hmem
      rcases List.mem_map.mp hmem with ⟨⟨a, b⟩, hab, hfst⟩
      have hren : Change.rename a b ∈ rest := mem_rename_pairs.mp hab
      have hlt := hstrict X (List.mem_cons_self X rest) hX a b
        (List.mem_cons_of_mem X hren) (by simpa using hfst.symm)
      have hle := hpair.1 _ hren
      rw [changeLe, keyLe, hlt] at hle
      simp at hle

theorem rev_one_inv (σ1 σ2 : RenameMap) (X : Change)
    (hpath : σ2.get (σ1.get (change_path X)) = change_path X) :
    rev_one σ2 (rev_one σ1 X) = X := by
  cases X <;>
    simp [rev_one, change_path, reverse_lines_involutive] at hpath ⊢ <;>
    exact hpath



/-- Concrete change list for the C2 counterexample: a modification of path
b recorded before a rename of a to b. -/
def c2_bad : List Change :=
  [Change.modifyFile "b" [Line.mk (some "x") (some "y")],
   Change.rename "a" "b"]

/-- C2 counterexample: with the default (empty) deprioritize configuration,
reversing twice moves the modification from path b to path a, so the
result is not the input up to any reordering. -/
theorem c2_counterexample :
    reverse_changes (fun _ => false) (reverse_changes (fun _ => false) c2_bad) =
      [Change.rename "a" "b", Change.modifyFile "a" [Line.mk (some "x") (some "y")]] ∧
    ¬ (reverse_changes (fun _ => false)
        (reverse_changes (fun _ => false) c2_bad)).Perm c2_bad := by
  constructor
  · rfl
  · decide

theorem changeLe_trans (dp : Path → Bool) {a b c : Change}
    (h1 : changeLe dp a b = true) (h2 : changeLe dp b c = true) :
    changeLe dp a c = true := keyLe_trans h1 h2

theorem changeLe_total (dp : Path → Bool) (a b : Change) :
    changeLe dp a b = true ∨ changeLe dp b a = true := keyLe_total _ _

/-- C2 amended: reversing twice returns the change set up to reordering by
the canonical key, for change sets whose rename old paths are distinct,
whose rename new paths are distinct, in which no change is recorded at the
old path of a later rename, in which no non-rename change is recorded at a
rename new path, and whose deprioritized flag is path independent for each
rename (equal on old and new path). -/
theorem c2_reverse_reverse_perm (dp : Path → Bool) (c : List Change)
    (h_olds : (rename_olds c).Nodup)
    (h_news : (rename_news c).Nodup)
    (h_ord : ordered_renames c = true)
    (h_paths : ∀ X ∈ c, isRename X = false → change_path X ∉ rename_news c)
    (h_dp : ∀ X ∈ c, is_change_deprioritized dp X = dp (change_path X)) :
    (reverse_changes dp (reverse_changes dp c)).Perm c := by
  have h1 : reverse_changes dp c =
      stableSort (changeLe dp) (c.map (rev_one (sigma_full [] c))) := by
    rw [reverse_changes, reverse_changes_loop_map c [] [] h_ord, List.nil_append]
  set σ1 := sigma_full [] c with hσ1
  set S := stableSort (changeLe dp) (c.map (rev_one σ1)) with hSdef
  have hSperm : S.Perm (c.map (rev_one σ1)) := stableSort_perm _ _
  have hSpair : List.Pairwise (fun x y => changeLe dp x y = true) S :=
    stableSort_pairwise (changeLe dp) (fun hab hbc => changeLe_trans dp hab hbc)
      (changeLe_total dp) _
  have hσ1shape : σ1 = (rename_pairs c).reverse := by
    rw [hσ1, sigma_full_shape, List.append_nil]
  have hσ1keys : σ1.map Prod.fst = (rename_olds c).reverse := by
    rw [hσ1shape, List.map_reverse]
    rfl
  have hσ1nodup : (σ1.map Prod.fst).Nodup := by
    rw [hσ1keys]
    exact List.nodup_reverse.mpr h_olds
  have hpairsS : (rename_pairs S).Perm ((rename_pairs c).map Prod.swap) := by
    have h : (rename_pairs S).Perm (rename_pairs (c.map (rev_one σ1))) :=
      hSperm.filterMap _
    rw [rename_pairs_map_rev_one] at h
    exact h
  set σ2 := sigma_full [] S with hσ2
  have hσ2shape : σ2 = (rename_pairs S).reverse := by
    rw [hσ2, sigma_full_shape, List.append_nil]
  have hσ2keys_perm : (σ2.map Prod.fst).Perm (rename_news c) := by
    rw [hσ2shape, List.map_reverse]
    refine (List.reverse_perm _).trans ?_
    refine (hpairsS.map Prod.fst).trans ?_
    rw [List.map_map]
    exact List.Perm.refl _
  have hσ2nodup : (σ2.map Prod.fst).Nodup := hσ2keys_perm.nodup_iff.mpr h_news
  have hσ2mem : ∀ x y : Path, (x, y) ∈ σ2 ↔ (y, x) ∈ rename_pairs c := by
    intro x y
    rw [hσ2shape, List.mem_reverse, hpairsS.mem_iff]
    constructor
    · intro hm
      rcases List.mem_map.mp hm with ⟨⟨u, v⟩, huv, heq⟩
      obtain ⟨hv, hu⟩ : v = x ∧ u = y := by
        simpa [Prod.ext_iff] using heq
      subst hv
      subst hu
      exact huv
    · intro hm
      exact List.mem_map.mpr ⟨(y, x), hm, rfl⟩
  have hpoint : ∀ X ∈ c, rev_one σ2 (rev_one σ1 X) = X := by
    intro X hX
    cases hXr : isRename X with
    | true =>
      cases X <;> first | rfl | simp [isRename] at hXr
    | false =>
      apply rev_one_inv
      by_cases hp : change_path X ∈ rename_olds c
      · rcases List.mem_map.mp hp with ⟨⟨a, b⟩, hab, hfst⟩
        have hget1 : σ1.get (change_path X) = b := by
          rw [← hfst]
          exact renameMap_get_of_mem_nodup σ1 a b
            (by rw [hσ1shape, List.mem_reverse]; exact hab) hσ1nodup
        have hmem2 : (b, change_path X) ∈ σ2 := by
          rw [hσ2mem]
          rw [← hfst]
          exact hab
        rw [hget1]
        exact renameMap_get_of_mem_nodup σ2 b _ hmem2 hσ2nodup
      · have hget1 : σ1.get (change_path X) = change_path X := by
          apply renameMap_get_of_not_mem
          rw [hσ1keys, List.mem_reverse]
          exact hp
        rw [hget1]
        apply renameMap_get_of_not_mem
        intro hmem
        exact h_paths X hX hXr (hσ2keys_perm.mem_iff.mp hmem)
  have hordS : ordered_renames S = true := by
    apply ordered_renames_of_sorted dp S hSpair
    intro X hX hXnr a b hab hpath
    rcases List.mem_map.mp (hSperm.mem_iff.mp hX) with ⟨X0, hX0, rfl⟩
    have hX0nr : isRename X0 = false := by
      rw [← isRename_rev_one σ1 X0]
      exact hXnr
    have hpath0 : σ1.get (change_path X0) = a := by
      rw [← change_path_rev_one σ1 X0 hX0nr]
      exact hpath
    have hba : (b, a) ∈ rename_pairs c := by
      have hmemS : (a, b) ∈ rename_pairs S := mem_rename_pairs.mpr hab
      rcases List.mem_map.mp (hpairsS.mem_iff.mp hmemS) with ⟨⟨u, v⟩, huv, heq⟩
      obtain ⟨hv, hu⟩ : v = a ∧ u = b := by
        simpa [Prod.ext_iff] using heq
      subst hv
      subst hu
      exact huv
    by_cases hp : change_path X0 ∈ rename_olds c
    · rcases List.mem_map.mp hp with ⟨⟨p0, b2⟩, hp0, hfst⟩
      have hget : σ1.get (change_path X0) = b2 := by
        rw [← hfst]
        exact renameMap_get_of_mem_nodup σ1 p0 b2
          (by rw [hσ1shape, List.mem_reverse]; exact hp0) hσ1nodup
      have hb2a : b2 = a := by
        rw [hget] at hpath0
        exact hpath0
      subst hb2a
      have heqpair : (p0, b2) = (b, b2) :=
        List.inj_on_of_nodup_map (f := Prod.snd) h_news hp0 hba rfl
      have hbp0 : b = p0 := (congrArg Prod.fst heqpair).symm
      have hdp2 : dp b2 = dp p0 := by
        have := h_dp (Change.rename p0 b2) (mem_rename_pairs.mp hp0)
        simpa [is_change_deprioritized, change_path] using this
      rw [change_key_rename, change_key_eq dp (rev_one σ1 X0),
        is_change_deprioritized_nonrename dp _ hXnr, hpath, hbp0, ← hdp2]
      exact keyLt_zero_lt _ _ _ (change_priority_pos _ hXnr)
    · have hid : σ1.get (change_path X0) = change_path X0 := by
        apply renameMap_get_of_not_mem
        rw [hσ1keys, List.mem_reverse]
        exact hp
      rw [hid] at hpath0
      have hanews : a ∈ rename_news c := List.mem_map.mpr ⟨(b, a), hba, rfl⟩
      rw [← hpath0] at hanews
      exact absurd hanews (h_paths X0 hX0 hX0nr)
  have h2 : reverse_changes dp (reverse_changes dp c) =
      stableSort (changeLe dp) (S.map (rev_one σ2)) := by
    rw [h1, reverse_changes, reverse_changes_loop_map S [] [] hordS, List.nil_append,
      hσ2]
  have e1 : (S.map (rev_one σ2)).Perm ((c.map (rev_one σ1)).map (rev_one σ2)) :=
    hSperm.map _
  have e2 : (c.map (rev_one σ1)).map (rev_one σ2) = c := by
    rw [List.map_map]
    conv_rhs => rw [← List.map_id c]
    exact List.map_congr_left fun X hX => hpoint X hX
  have hfinal := (stableSort_perm (changeLe dp) (S.map (rev_one σ2))).trans e1
  rw [e2] at hfinal
  rw [h2]
  exact hfinal

/-- C2 witness: a rename followed by a modification at the old path meets
every hypothesis under the default configuration, and double reversal is a
permutation of it. -/
theorem c2_reverse_reverse_perm_witness :
    ((rename_olds c3_rename_modify).Nodup ∧
     (rename_news c3_rename_modify).Nodup ∧
     ordered_renames c3_rename_modify = true ∧
     (∀ X ∈ c3_rename_modify, isRename X = false →
       change_path X ∉ rename_news c3_rename_modify) ∧
     (∀ X ∈ c3_rename_modify,
       is_change_deprioritized (fun _ => false) X = (fun _ : Path => false) (change_path X))) ∧
    (reverse_changes (fun _ => false)
      (reverse_changes (fun _ => false) c3_rename_modify)).Perm c3_rename_modify :=
  ⟨⟨by decide, by decide, by decide, by decide, by decide⟩,
    c2_reverse_reverse_perm (fun _ => false) c3_rename_modify
      (by decide) (by decide) (by decide) (by decide) (by decide)⟩



/-! Similarity scores and the line diff search, from diff.py. -/

/-- Similarity score as an exact fraction (the source computes floats);
comparisons are by cross multiplication, denominators are positive at
every construction site. -/
structure Sim where
  num : Nat
  den : Nat
deriving DecidableEq, Repr

/-- Non-strict comparison of scores. -/
def simLe (a b : Sim) : Bool := decide (a.num * b.den ≤ b.num * a.den)

/-- Strict comparison of scores. -/
def simLt (a b : Sim) : Bool := decide (a.num * b.den < b.num * a.den)

/-- Equality of scores as values. -/
def simEq (a b : Sim) : Bool := decide (a.num * b.den = b.num * a.den)

/-- SIMILARITY_THRESHOLD = 0.6 from diff.py. -/
def SIMILARITY_THRESHOLD : Sim := ⟨3, 5⟩

/-- Length of the longest common prefix of two character lists. -/
def common_chars : List Char → List Char → Nat
  | a :: as, b :: bs => if a = b then common_chars as bs + 1 else 0
  | _, _ => 0

/-- Best matching block between a and b: position in a, position in b and
size of the longest common substring, preferring the earliest positions.
Models difflib find_longest_match without junk (autojunk affects only
sequences of two hundred or more elements, and the repository compares
single lines and symlink targets). -/
def longest_match (a b : List Char) : Nat × Nat × Nat :=
  (List.range a.length).foldl
    (fun best i =>
      (List.range b.length).foldl
        (fun best j =>
          let size := common_chars (a.drop i) (b.drop j)
          if best.2.2 < size then (i, j, size) else best)
        best)
    (0, 0, 0)

/-- Total size of the matching blocks of the Ratcliff-Obershelp recursion,
as difflib get_matching_blocks computes it. -/
def ratcliff_total (fuel : Nat) (a b : List Char) : Nat :=
  match fuel with
  | 0 => 0
  | fuel + 1 =>
    match longest_match a b with
    | (i, j, size) =>
      if size = 0 then 0
      else
        size + ratcliff_total fuel (a.take i) (b.take j) +
          ratcliff_total fuel (a.drop (i + size)) (b.drop (j + size))

/-- get_line_similarity from diff.py: 1 for equal strings, otherwise the
SequenceMatcher ratio 2M over T. -/
def get_line_similarity (old new : String) : Sim :=
  if old = new then ⟨1, 1⟩
  else
    ⟨2 * ratcliff_total (old.data.length + 1) old.data new.data,
      old.data.length + new.data.length⟩

/-- Python round on a non-negative fraction: round half to even. -/
def round_half_even_div (n d : Nat) : Nat :=
  let q := n / d
  let r := n % d
  if 2 * r < d then q
  else if d < 2 * r then q + 1
  else if q % 2 = 0 then q
  else q + 1

/-- Heap states of diff_lines_base: (cost, kind, old index, new index,
line).  Python only ever compares the first four components of the tuples
(states with an equal prefix carry equal lines). -/
abbrev SState := Nat × Nat × Nat × Nat × Option Line

/-- Heap order on states: lexicographic on the numeric prefix. -/
def sstateLe (x y : SState) : Bool :=
  match x, y with
  | (c1, k1, i1, j1, _), (c2, k2, i2, j2, _) =>
    if c1 ≠ c2 then decide (c1 < c2)
    else if k1 ≠ k2 then decide (k1 < k2)
    else if i1 ≠ i2 then decide (i1 < i2)
    else decide (j1 ≤ j2)

/-- The line_to dict of diff_lines_base. -/
abbrev LineTo := List ((Nat × Nat) × Option Line)

/-- Dictionary lookup in line_to. -/
def lookup_pos (m : LineTo) (k : Nat × Nat) : Option (Option Line) :=
  match m.find? (fun kv => kv.1 == k) with
  | some kv => some kv.2
  | none => none

/-- The back-pointer reconstruction at the end of diff_lines_base: follow
line_to entries back to the origin, collecting lines (the python loop
appends and reverses; here the list is built in final order).  A missing
entry models the KeyError python would raise. -/
def reconstruct_lines (line_to : LineTo) :
    Option Line → Nat → Nat → Nat → Option (List Line)
  | none, _, _, _ => some []
  | some _, _, _, 0 => none
  | some l, i, j, fuel + 1 =>
    let i2 := if l.old.isSome then i - 1 else i
    let j2 := if l.new.isSome then j - 1 else j
    match lookup_pos line_to (i2, j2) with
    | none => none
    | some line2 => (reconstruct_lines line_to line2 i2 j2 fuel).map (· ++ [l])

/-- The main search loop of diff_lines_base.  The heap is a sorted list
(pop is the head); fuel bounds the number of pops, an empty heap models
the IndexError heappop would raise. -/
def diff_loop (old new : List String) :
    List SState → LineTo → Nat → Option (List Line)
  | _, _, 0 => none
  | [], _, _ + 1 => none
  | (min_cost, _, old_index, new_index, line) :: states, line_to, fuel + 1 =>
    if (lookup_pos line_to (old_index, new_index)).isSome then
      diff_loop old new states line_to fuel
    else
      let line_to2 := ((old_index, new_index), line) :: line_to
      let old_todo := old.length - old_index
      let new_todo := new.length - new_index
      if old_todo = 0 ∧ new_todo = 0 then
        reconstruct_lines line_to2 line old_index new_index (old_index + new_index + 1)
      else
        let s1 :=
          if old_todo ≠ 0 then
            ordInsert sstateLe
              (min_cost + 200 * (if old_todo ≤ new_todo then 1 else 0), 2,
                old_index + 1, new_index,
                some (Line.mk (some (old.getD old_index "")) none))
              states
          else states
        let s2 :=
          if new_todo ≠ 0 then
            ordInsert sstateLe
              (min_cost + 200 * (if new_todo ≤ old_todo then 1 else 0), 1,
                old_index, new_index + 1,
                some (Line.mk none (some (new.getD new_index ""))))
              s1
          else s1
        let s3 :=
          if old_todo ≠ 0 ∧ new_todo ≠ 0 then
            let similarity :=
              get_line_similarity (old.getD old_index "") (new.getD new_index "")
            if simLe SIMILARITY_THRESHOLD similarity then
              ordInsert sstateLe
                (min_cost +
                  (200 - round_half_even_div (similarity.num * 200) similarity.den), 0,
                  old_index + 1, new_index + 1,
                  some (Line.mk (some (old.getD old_index ""))
                    (some (new.getD new_index ""))))
                s2
            else s2
          else s2
        diff_loop old new s3 line_to2 fuel

/-- diff_lines_base from diff.py.  The fuel bounds the number of pops: at
most one push per initial state plus three per visited position. -/
def diff_lines_base (old new : List String) : Option (List Line) :=
  diff_loop old new
    [(100 * ((old.length - new.length) + (new.length - old.length)), 0, 0, 0, none)]
    [] (3 * (old.length + 1) * (new.length + 1) + 2)

/-- Length of the longest common prefix of two string lists. -/
def common_prefix_count : List String → List String → Nat
  | a :: as, b :: bs => if a = b then common_prefix_count as bs + 1 else 0
  | _, _ => 0

/-- diff_lines from diff.py: strip the common prefix and suffix, diff the
middle, and flank it with unchanged lines. -/
def diff_lines (old new : List String) : Option (List Line) :=
  let start := common_prefix_count old new
  let k := common_prefix_count (old.drop start).reverse (new.drop start).reverse
  (diff_lines_base ((old.drop start).take (old.length - k - start))
      ((new.drop start).take (new.length - k - start))).map fun mid =>
    (old.take start).map (fun s => Line.mk (some s) (some s)) ++ mid ++
      (old.drop (old.length - k)).map (fun s => Line.mk (some s) (some s))

/-- The old-side projection of a line list. -/
def proj_old (lines : List Line) : List String := lines.filterMap Line.old

/-- The new-side projection of a line list. -/
def proj_new (lines : List Line) : List String := lines.filterMap Line.new



theorem lookup_pos_cons_self (k : Nat × Nat) (v : Option Line) (m : LineTo) :
    lookup_pos ((k, v) :: m) k = some v := by
  have h : List.find? (fun kv => kv.1 == k) ((k, v) :: m) = some (k, v) :=
    List.find?_cons_of_pos _ (by simp)
  rw [lookup_pos, h]

theorem lookup_pos_cons_ne (k k2 : Nat × Nat) (v : Option Line) (m : LineTo)
    (h : k2 ≠ k) : lookup_pos ((k, v) :: m) k2 = lookup_pos m k2 := by
  rw [lookup_pos, lookup_pos, List.find?_cons_of_neg]
  simp
  exact fun hh => absurd hh.symm h

theorem reconstruct_extend_fresh :
    ∀ (f : Nat) (line_to : LineTo) (line : Option Line) (i j : Nat) (L : List Line)
      (k : Nat × Nat) (v : Option Line),
      lookup_pos line_to k = none →
      reconstruct_lines line_to line i j f = some L →
      reconstruct_lines ((k, v) :: line_to) line i j f = some L
  | f, line_to, none, i, j, L, k, v, _, hrun => by
    cases f <;> simpa [reconstruct_lines] using hrun
  | 0, line_to, some l, i, j, L, k, v, _, hrun => by
    simp [reconstruct_lines] at hrun
  | f + 1, line_to, some l, i, j, L, k, v, hfresh, hrun => by
    rw [reconstruct_lines] at hrun ⊢
    rcases hlk : lookup_pos line_to
        (if l.old.isSome then i - 1 else i, if l.new.isSome then j - 1 else j) with _ | line2
    · rw [hlk] at hrun
      simp at hrun
    · rw [hlk] at hrun
      have hne : ((if l.old.isSome then i - 1 else i, if l.new.isSome then j - 1 else j) :
          Nat × Nat) ≠ k := by
        intro hh
        rw [hh, hfresh] at hlk
        exact Option.noConfusion hlk
      rw [lookup_pos_cons_ne _ _ _ _ hne, hlk]
      simp only [Option.map_eq_some'] at hrun ⊢
      rcases hrun with ⟨L2, hL2, hL⟩
      exact ⟨L2, reconstruct_extend_fresh f line_to line2 _ _ L2 k v hfresh hL2, hL⟩

/-- The invariant tying a line_to entry (or heap state) at position (i, j)
to a reconstructed prefix alignment. -/
def ReconOK (old new : List String) (line_to : LineTo) (i j : Nat)
    (line : Option Line) : Prop :=
  ∃ L : List Line, proj_old L = old.take i ∧ proj_new L = new.take j ∧
    ∀ f : Nat, i + j + 1 ≤ f → reconstruct_lines line_to line i j f = some L

/-- The invariant of one heap state. -/
def StateOK (old new : List String) (line_to : LineTo) : SState → Prop
  | (_, _, i, j, line) =>
    i ≤ old.length ∧ j ≤ new.length ∧ ReconOK old new line_to i j line

/-- The invariant of the whole heap. -/
def HeapOK (old new : List String) (line_to : LineTo) (heap : List SState) : Prop :=
  ∀ s ∈ heap, StateOK old new line_to s

theorem ReconOK_extend {old new : List String} {line_to : LineTo} {i j : Nat}
    {line : Option Line} (k : Nat × Nat) (v : Option Line)
    (hfresh : lookup_pos line_to k = none)
    (h : ReconOK old new line_to i j line) :
    ReconOK old new ((k, v) :: line_to) i j line := by
  obtain ⟨L, h1, h2, h3⟩ := h
  exact ⟨L, h1, h2, fun f hf => reconstruct_extend_fresh f line_to line i j L k v hfresh
    (h3 f hf)⟩

theorem StateOK_extend {old new : List String} {line_to : LineTo}
    (k : Nat × Nat) (v : Option Line) (hfresh : lookup_pos line_to k = none)
    {s : SState} (h : StateOK old new line_to s) :
    StateOK old new ((k, v) :: line_to) s := by
  rcases s with ⟨c, kd, i, j, line⟩
  exact ⟨h.1, h.2.1, ReconOK_extend k v hfresh h.2.2⟩

theorem HeapOK_insert {old new : List String} {line_to : LineTo} {s : SState}
    {h : List SState} (hs : StateOK old new line_to s)
    (hh : HeapOK old new line_to h) :
    HeapOK old new line_to (ordInsert sstateLe s h) := by
  intro x hx
  rcases List.mem_cons.mp ((ordInsert_perm _ _ _).mem_iff.mp hx) with rfl | hx2
  · exact hs
  · exact hh x hx2

theorem take_succ_getD (l : List String) (i : Nat) (h : i < l.length) :
    l.take (i + 1) = l.take i ++ [l.getD i ""] := by
  rw [List.take_succ]
  congr 1
  rw [List.getD_eq_getElem?_getD, List.getElem?_eq_getElem h]
  rfl

theorem ReconOK_push_del {old new : List String} {line_to : LineTo} {i j : Nat}
    {line : Option Line} (hself : lookup_pos line_to (i, j) = some line)
    (hprev : ReconOK old new line_to i j line) (hi : i < old.length) :
    ReconOK old new line_to (i + 1) j
      (some (Line.mk (some (old.getD i "")) none)) := by
  obtain ⟨L, h1, h2, h3⟩ := hprev
  refine ⟨L ++ [Line.mk (some (old.getD i "")) none], ?_, ?_, ?_⟩
  · rw [proj_old, List.filterMap_append, ← proj_old, h1]
    rw [take_succ_getD old i hi]
    rfl
  · rw [proj_new, List.filterMap_append, ← proj_new, h2]
    simp [Line.new]
  · intro f hf
    match f, hf with
    | g + 1, hf =>
      rw [reconstruct_lines]
      simp only [Option.isSome_some, Option.isSome_none, Bool.false_eq_true, if_true,
        if_false, Nat.add_sub_cancel]
      rw [hself]
      dsimp only
      rw [h3 g (by omega)]
      rfl

theorem ReconOK_push_add {old new : List String} {line_to : LineTo} {i j : Nat}
    {line : Option Line} (hself : lookup_pos line_to (i, j) = some line)
    (hprev : ReconOK old new line_to i j line) (hj : j < new.length) :
    ReconOK old new line_to i (j + 1)
      (some (Line.mk none (some (new.getD j "")))) := by
  obtain ⟨L, h1, h2, h3⟩ := hprev
  refine ⟨L ++ [Line.mk none (some (new.getD j ""))], ?_, ?_, ?_⟩
  · rw [proj_old, List.filterMap_append, ← proj_old, h1]
    simp [Line.old]
  · rw [proj_new, List.filterMap_append, ← proj_new, h2]
    rw [take_succ_getD new j hj]
    rfl
  · intro f hf
    match f, hf with
    | g + 1, hf =>
      rw [reconstruct_lines]
      simp only [Option.isSome_some, Option.isSome_none, Bool.false_eq_true, if_true,
        if_false, Nat.add_sub_cancel]
      rw [hself]
      dsimp only
      rw [h3 g (by omega)]
      rfl

theorem ReconOK_push_sub {old new : List String} {line_to : LineTo} {i j : Nat}
    {line : Option Line} (hself : lookup_pos line_to (i, j) = some line)
    (hprev : ReconOK old new line_to i j line) (hi : i < old.length)
    (hj : j < new.length) :
    ReconOK old new line_to (i + 1) (j + 1)
      (some (Line.mk (some (old.getD i "")) (some (new.getD j "")))) := by
  obtain ⟨L, h1, h2, h3⟩ := hprev
  refine ⟨L ++ [Line.mk (some (old.getD i "")) (some (new.getD j ""))], ?_, ?_, ?_⟩
  · rw [proj_old, List.filterMap_append, ← proj_old, h1]
    rw [take_succ_getD old i hi]
    rfl
  · rw [proj_new, List.filterMap_append, ← proj_new, h2]
    rw [take_succ_getD new j hj]
    rfl
  · intro f hf
    match f, hf with
    | g + 1, hf =>
      rw [reconstruct_lines]
      simp only [Option.isSome_some, if_true, Nat.add_sub_cancel]
      rw [hself]
      dsimp only
      rw [h3 g (by omega)]
      rfl



theorem diff_loop_proj (old new : List String) :
    ∀ (fuel : Nat) (heap : List SState) (line_to : LineTo) (L : List Line),
      HeapOK old new line_to heap →
      diff_loop old new heap line_to fuel = some L →
      proj_old L = old ∧ proj_new L = new := by
  intro fuel
  induction fuel with
  | zero =>
    intro heap line_to L _ hrun
    simp [diff_loop] at hrun
  | succ fuel ih =>
    intro heap line_to L hheap hrun
    match heap with
    | [] => simp [diff_loop] at hrun
    | (mc, kd, i, j, line) :: states =>
      rw [diff_loop] at hrun
      by_cases hvis : (lookup_pos line_to (i, j)).isSome
      · rw [if_pos hvis] at hrun
        exact ih states line_to L (fun s hs => hheap s (List.mem_cons_of_mem _ hs)) hrun
      · rw [if_neg hvis] at hrun
        have hfresh : lookup_pos line_to (i, j) = none := by
          rcases h : lookup_pos line_to (i, j) with _ | v
          · rfl
          · rw [h] at hvis
            simp at hvis
        obtain ⟨hi, hj, hrec⟩ := hheap _ (List.mem_cons_self _ _)
        have hself : lookup_pos (((i, j), line) :: line_to) (i, j) = some line :=
          lookup_pos_cons_self _ _ _
        have hrec2 : ReconOK old new (((i, j), line) :: line_to) i j line :=
          ReconOK_extend _ _ hfresh hrec
        by_cases hgoal : old.length - i = 0 ∧ new.length - j = 0
        · rw [if_pos hgoal] at hrun
          obtain ⟨L2, hpo, hpn, hrecf⟩ := hrec2
          rw [hrecf (i + j + 1) (Nat.le_refl _)] at hrun
          have hL : L = L2 := by
            simpa using hrun.symm
          subst hL
          have hieq : i = old.length := by omega
          have hjeq : j = new.length := by omega
          subst hieq
          subst hjeq
          rw [List.take_length] at hpo
          rw [List.take_length] at hpn
          exact ⟨hpo, hpn⟩
        · rw [if_neg hgoal] at hrun
          have hheap2 : HeapOK old new (((i, j), line) :: line_to) states :=
            fun s hs => StateOK_extend _ _ hfresh (hheap s (List.mem_cons_of_mem _ hs))
          have hs1ok : ∀ hcond : Prop, HeapOK old new (((i, j), line) :: line_to)
              (if old.length - i ≠ 0 then
                ordInsert sstateLe
                  (mc + 200 * (if old.length - i ≤ new.length - j then 1 else 0), 2,
                    i + 1, j, some (Line.mk (some (old.getD i "")) none))
                  states
               else states) := by
            intro _
            by_cases hod : old.length - i ≠ 0
            · rw [if_pos hod]
              refine HeapOK_insert ⟨by omega, hj, ?_⟩ hheap2
              exact ReconOK_push_del hself hrec2 (by omega)
            · rw [if_neg hod]
              exact hheap2
          have hs1 := hs1ok True
          set s1 := (if old.length - i ≠ 0 then
              ordInsert sstateLe
                (mc + 200 * (if old.length - i ≤ new.length - j then 1 else 0), 2,
                  i + 1, j, some (Line.mk (some (old.getD i "")) none))
                states
            else states) with hs1def
          have hs2 : HeapOK old new (((i, j), line) :: line_to)
              (if new.length - j ≠ 0 then
                ordInsert sstateLe
                  (mc + 200 * (if new.length - j ≤ old.length - i then 1 else 0), 1,
                    i, j + 1, some (Line.mk none (some (new.getD j ""))))
                  s1
               else s1) := by
            by_cases hnd : new.length - j ≠ 0
            · rw [if_pos hnd]
              refine HeapOK_insert ⟨hi, by omega, ?_⟩ hs1
              exact ReconOK_push_add hself hrec2 (by omega)
            · rw [if_neg hnd]
              exact hs1
          set s2 := (if new.length - j ≠ 0 then
              ordInsert sstateLe
                (mc + 200 * (if new.length - j ≤ old.length - i then 1 else 0), 1,
                  i, j + 1, some (Line.mk none (some (new.getD j ""))))
                s1
            else s1) with hs2def
          have hs3 : HeapOK old new (((i, j), line) :: line_to)
              (if old.length - i ≠ 0 ∧ new.length - j ≠ 0 then
                (let similarity := get_line_similarity (old.getD i "") (new.getD j "")
                 if simLe SIMILARITY_THRESHOLD similarity then
                   ordInsert sstateLe
                     (mc + (200 - round_half_even_div (similarity.num * 200)
                        similarity.den), 0,
                       i + 1, j + 1, some (Line.mk (some (old.getD i ""))
                         (some (new.getD j ""))))
                     s2
                 else s2)
               else s2) := by
            by_cases hbd : old.length - i ≠ 0 ∧ new.length - j ≠ 0
            · rw [if_pos hbd]
              by_cases hsim : simLe SIMILARITY_THRESHOLD
                  (get_line_similarity (old.getD i "") (new.getD j ""))
              · simp only [hsim, if_pos]
                refine HeapOK_insert ⟨by omega, by omega, ?_⟩ hs2
                exact ReconOK_push_sub hself hrec2 (by omega) (by omega)
              · simp only [hsim, if_neg, Bool.false_eq_true, if_false]
                exact hs2
            · rw [if_neg hbd]
              exact hs2
          exact ih _ _ L hs3 hrun

/-- C4 for the base search: when diff_lines_base returns an alignment, its
old projection is the old input and its new projection is the new input. -/
theorem diff_lines_base_proj (old new : List String) (L : List Line)
    (h : diff_lines_base old new = some L) :
    proj_old L = old ∧ proj_new L = new := by
  refine diff_loop_proj old new _ _ [] L ?_ h
  intro s hs
  rcases List.mem_singleton.mp hs with rfl
  refine ⟨Nat.zero_le _, Nat.zero_le _, [], by simp [proj_old], by simp [proj_new], ?_⟩
  intro f hf
  match f, hf with
  | g + 1, _ => rfl



theorem cpc_le_left : ∀ a b : List String, common_prefix_count a b ≤ a.length := by
  intro a
  induction a with
  | nil => intro b; cases b <;> simp [common_prefix_count]
  | cons x xs ih =>
    intro b
    cases b with
    | nil => simp [common_prefix_count]
    | cons y ys =>
      rw [common_prefix_count]
      by_cases hxy : x = y
      · rw [if_pos hxy]
        simpa using ih ys
      · rw [if_neg hxy]
        simp

theorem cpc_le_right : ∀ a b : List String, common_prefix_count a b ≤ b.length := by
  intro a
  induction a with
  | nil => intro b; cases b <;> simp [common_prefix_count]
  | cons x xs ih =>
    intro b
    cases b with
    | nil => simp [common_prefix_count]
    | cons y ys =>
      rw [common_prefix_count]
      by_cases hxy : x = y
      · rw [if_pos hxy]
        simpa using ih ys
      · rw [if_neg hxy]
        simp

theorem cpc_take : ∀ a b : List String,
    a.take (common_prefix_count a b) = b.take (common_prefix_count a b) := by
  intro a
  induction a with
  | nil => intro b; cases b <;> simp [common_prefix_count]
  | cons x xs ih =>
    intro b
    cases b with
    | nil => simp [common_prefix_count]
    | cons y ys =>
      rw [common_prefix_count]
      by_cases hxy : x = y
      · rw [if_pos hxy]
        simp [hxy, ih ys]
      · rw [if_neg hxy]
        simp

theorem reverse_take_reverse (l : List String) (k : Nat) :
    (l.reverse.take k).reverse = l.drop (l.length - k) := by
  rw [List.reverse_take]
  simp

theorem proj_old_dup (xs : List String) :
    proj_old (xs.map fun s => Line.mk (some s) (some s)) = xs := by
  rw [proj_old, List.filterMap_map]
  exact List.filterMap_eq_map _ ▸ List.map_id xs

theorem proj_new_dup (xs : List String) :
    proj_new (xs.map fun s => Line.mk (some s) (some s)) = xs := by
  rw [proj_new, List.filterMap_map]
  exact List.filterMap_eq_map _ ▸ List.map_id xs

/-- C4: diff_lines, whenever the bounded search succeeds, returns an alignment
whose present old fields in order are exactly the old lines and whose present
new fields in order are exactly the new lines. -/
theorem c4_diff_lines_projections (old new : List String) (lines : List Line)
    (h : diff_lines old new = some lines) :
    proj_old lines = old ∧ proj_new lines = new := by
  simp only [diff_lines] at h
  rcases Option.map_eq_some'.mp h with ⟨mid, hmid, hlines⟩
  subst hlines
  obtain ⟨hpo, hpn⟩ := diff_lines_base_proj _ _ _ hmid
  have hs_le : common_prefix_count old new ≤ old.length := cpc_le_left _ _
  have hs_le2 : common_prefix_count old new ≤ new.length := cpc_le_right _ _
  set start := common_prefix_count old new with hstartdef
  set k := common_prefix_count (old.drop start).reverse (new.drop start).reverse
    with hkdef
  have hk_le : k ≤ old.length - start := by
    have := cpc_le_left (old.drop start).reverse (new.drop start).reverse
    simpa using this
  have hk_le2 : k ≤ new.length - start := by
    have := cpc_le_right (old.drop start).reverse (new.drop start).reverse
    simpa using this
  have hsuffix : old.drop (old.length - k) = new.drop (new.length - k) := by
    have htk := cpc_take (old.drop start).reverse (new.drop start).reverse
    have h1 := congrArg List.reverse htk
    rw [reverse_take_reverse, reverse_take_reverse] at h1
    rw [List.drop_drop, List.drop_drop, ← hkdef] at h1
    have e1 : start + ((old.drop start).length - k) = old.length - k := by
      simp only [List.length_drop]
      omega
    have e2 : start + ((new.drop start).length - k) = new.length - k := by
      simp only [List.length_drop]
      omega
    rw [e1, e2] at h1
    exact h1
  have hprefix : old.take start = new.take start := cpc_take old new
  have hold : old.take start ++
      ((old.drop start).take (old.length - k - start) ++ old.drop (old.length - k)) =
      old := by
    have hdd : old.drop (old.length - k) =
        (old.drop start).drop (old.length - k - start) := by
      rw [List.drop_drop]
      have : start + (old.length - k - start) = old.length - k := by omega
      rw [this]
    rw [hdd, List.take_append_drop, List.take_append_drop]
  have hnew : new.take start ++
      ((new.drop start).take (new.length - k - start) ++ new.drop (new.length - k)) =
      new := by
    have hdd : new.drop (new.length - k) =
        (new.drop start).drop (new.length - k - start) := by
      rw [List.drop_drop]
      have : start + (new.length - k - start) = new.length - k := by omega
      rw [this]
    rw [hdd, List.take_append_drop, List.take_append_drop]
  constructor
  · rw [proj_old, List.filterMap_append, List.filterMap_append]
    rw [← proj_old, ← proj_old, ← proj_old, proj_old_dup, proj_old_dup, hpo]
    rw [List.append_assoc]
    exact hold
  · rw [proj_new, List.filterMap_append, List.filterMap_append]
    rw [← proj_new, ← proj_new, ← proj_new, proj_new_dup, proj_new_dup, hpn]
    rw [List.append_assoc, hprefix, hsuffix]
    exact hnew

/-- Witness for C4 at a concrete input: diff_lines on two two-line files with a
shared first line yields an alignment projecting back to both inputs. -/
theorem c4_diff_lines_projections_witness :
    proj_old [Line.mk (some "foo") (some "foo"), Line.mk (some "bar") (some "baz")] =
        ["foo", "bar"] ∧
      proj_new [Line.mk (some "foo") (some "foo"), Line.mk (some "bar") (some "baz")] =
        ["foo", "baz"] :=
  c4_diff_lines_projections ["foo", "bar"] ["foo", "baz"]
    [Line.mk (some "foo") (some "foo"), Line.mk (some "bar") (some "baz")] (by decide)



/-- split_lines from diff.py as observed through FileData: a decodable text
file yields its line list (the trailing-newline sentinel is already encoded
in the list) and a binary file yields none (UnicodeDecodeError). -/
def split_lines : FileData → Option (List String)
  | .text lines => some lines
  | .binary _ => none

/-- content_is_equal from diff.py compares the bytes of the two referenced
files; on the FileData abstraction this is equality of the observed content
(byte strings with the same universal-newline split are identified, which the
rest of the pipeline cannot distinguish either). -/
def content_is_equal (o n : FileData) : Bool := o == n

/-- get_line_counts from diff.py builds a Counter of stripped nonempty lines;
the model keeps the list whose multiset is that counter. -/
def get_line_counts (lines : List String) : List String :=
  (lines.map String.trim).filter fun l => l != ""

/-- get_text_similarity from diff.py: twice the size of the multiset
intersection of the line counters over the total count, as an exact fraction
(the code computes a float); 1 when both counters are empty. -/
def get_text_similarity (old_lines new_lines : List String) : Sim :=
  let o := get_line_counts old_lines
  let n := get_line_counts new_lines
  if o.length + n.length = 0 then ⟨1, 1⟩
  else ⟨2 * (o.bagInter n).length, o.length + n.length⟩

/-- stable_hash from diff.py is an 8-byte blake2b digest of a chunk; the model
uses the chunk itself as its own digest, an injective stand-in for a hash
whose collisions the development ignores. -/
def stable_hash (c : List Nat) : List Nat := c

/-- get_binary_similarity from diff.py: twice the number of common distinct
chunk hashes over the total number of distinct hashes, as an exact fraction;
1 when both sides have no hashes. -/
def get_binary_similarity (old new : List Nat) : Sim :=
  let oc := ((get_binary_chunks old).map stable_hash).dedup
  let nc := ((get_binary_chunks new).map stable_hash).dedup
  if oc.length + nc.length = 0 then ⟨1, 1⟩
  else ⟨2 * (oc.inter nc).length, oc.length + nc.length⟩

/-- get_content_similarity from diff.py with float arithmetic replaced by
exact fractions: equal file bytes give 1, text pairs use line counters,
binary pairs use chunk hashes, symlink pairs compare the rendered targets,
and mismatched kinds give 0. -/
def get_content_similarity (old new : Content) : Sim :=
  match old, new with
  | .file od _, .file nd _ =>
    if content_is_equal od nd then ⟨1, 1⟩
    else
      match od, nd with
      | .text ol, .text nl => get_text_similarity ol nl
      | .binary ob, .binary nb => get_binary_similarity ob nb
      | _, _ => ⟨0, 1⟩
  | .symlink od, .symlink nd => get_line_similarity od nd
  | _, _ => ⟨0, 1⟩

/-- delete_content from diff.py: a text file with a truthy (nonempty) split
becomes a DeleteFile of old-only lines, any other file a DeleteBinary, a
symlink a DeleteSymlink. -/
def delete_content (path : Path) (content : Content) : Change :=
  match content with
  | .file d is_exec =>
    match split_lines d with
    | some (l :: ls) =>
      Change.deleteFile path ((l :: ls).map fun s => Line.mk (some s) none) is_exec
    | _ => Change.deleteBinary path d is_exec
  | .symlink dest => Change.deleteSymlink path dest

/-- add_content from diff.py: a text file with a truthy (nonempty) split
becomes an AddFile of new-only lines, any other file an AddBinary, a symlink
an AddSymlink. -/
def add_content (path : Path) (content : Content) : Change :=
  match content with
  | .file d is_exec =>
    match split_lines d with
    | some (l :: ls) =>
      Change.addFile path ((l :: ls).map fun s => Line.mk none (some s)) is_exec
    | _ => Change.addBinary path d is_exec
  | .symlink dest => Change.addSymlink path dest

/-- diff_content from diff.py; none only when the bounded line-diff search
runs out of fuel. -/
def diff_content (path : Path) (old_content new_content : Content) :
    Option (List Change) :=
  match old_content, new_content with
  | .file od oe, .file nd ne2 =>
    if content_is_equal od nd then
      some (if oe != ne2 then [Change.changeMode path oe ne2] else [])
    else
      match od, nd with
      | .text ol, .text nl =>
        match diff_lines ol nl with
        | none => none
        | some lines =>
          some ((if oe != ne2 then [Change.changeMode path oe ne2] else []) ++
            (if lines.any (fun l => l.status != LineStatus.unchanged) then
              [Change.modifyFile path lines] else []))
      | .binary _, .binary _ =>
        some ((if oe != ne2 then [Change.changeMode path oe ne2] else []) ++
          [Change.modifyBinary path od nd])
      | .text ol, .binary _ =>
        some [Change.deleteFile path (ol.map fun s => Line.mk (some s) none) oe,
          Change.addBinary path nd ne2]
      | .binary _, .text nl =>
        some [Change.deleteBinary path od oe,
          Change.addFile path (nl.map fun s => Line.mk none (some s)) ne2]
  | .symlink od, .symlink nd =>
    some (if od != nd then [Change.modifySymlink path od nd] else [])
  | o, n => some [delete_content path o, add_content path n]

/-- A directory tree as the diff engine observes it: paths with their
contents, in the iteration order of the Mapping. -/
abbrev FS := List (Path × Content)

/-- Mapping lookup: first binding for the path, none for a KeyError. -/
def fs_lookup (fs : FS) (p : Path) : Option Content :=
  (fs.find? fun kv => kv.1 == p).map Prod.snd

/-- dict.pop: drop the bindings of a path, keeping the order of the rest. -/
def fs_erase (fs : FS) (p : Path) : FS := fs.filter fun kv => kv.1 != p

/-- The first loop of diff_contents: diff paths present on both sides in the
iteration order of the new tree, and collect paths only present in new. -/
def diff_new_loop (old : FS) :
    List (Path × Content) → List Change → FS → Option (List Change × FS)
  | [], changes, added => some (changes, added)
  | (p, nc) :: rest, changes, added =>
    match fs_lookup old p with
    | none => diff_new_loop old rest changes (added ++ [(p, nc)])
    | some oc =>
      match diff_content p oc nc with
      | none => none
      | some cs => diff_new_loop old rest (changes ++ cs) added

/-- Order of the rename candidate heap entries (-similarity, old path, new
path) from diff_contents: higher similarity first, ties broken by old path
then new path in code-point order (floats are exact fractions here). -/
def renLe (a b : Sim × Path × Path) : Bool :=
  if b.1.num * a.1.den < a.1.num * b.1.den then true
  else if a.1.num * b.1.den < b.1.num * a.1.den then false
  else if pathLt a.2.1 b.2.1 then true
  else if pathLt b.2.1 a.2.1 then false
  else !pathLt b.2.2 a.2.2

/-- The rename candidates of diff_contents: every (deleted, added) pair whose
content similarity reaches the threshold, in product order; heap pops then
traverse them in renLe order. -/
def rename_cands (deleted added : FS) : List (Sim × Path × Path) :=
  deleted.flatMap fun od =>
    added.filterMap fun ad =>
      let s := get_content_similarity od.2 ad.2
      if simLe SIMILARITY_THRESHOLD s then some (s, od.1, ad.1) else none

/-- The rename-selection loop of diff_contents: pop candidates in heap order,
skip those with a consumed endpoint, otherwise emit the Rename plus the inner
diff at the old path and consume both endpoints. -/
def process_renames :
    List (Sim × Path × Path) → FS → FS → List Change →
      Option (List Change × FS × FS)
  | [], deleted, added, changes => some (changes, deleted, added)
  | c :: rest, deleted, added, changes =>
    match fs_lookup deleted c.2.1, fs_lookup added c.2.2 with
    | some oc, some nc =>
      match diff_content c.2.1 oc nc with
      | none => none
      | some cs =>
        process_renames rest (fs_erase deleted c.2.1) (fs_erase added c.2.2)
          (changes ++ (Change.rename c.2.1 c.2.2 :: cs))
    | _, _ => process_renames rest deleted added changes

/-- diff_contents from diff.py: diff common paths, pair deleted with added
paths as renames by similarity, delete and add the rest, and sort by
change_key (dp is the deprioritization configuration change_key reads). -/
def diff_contents (dp : Path → Bool) (old new : FS) : Option (List Change) :=
  match diff_new_loop old new [] [] with
  | none => none
  | some (changes, added) =>
    let deleted := old.filter fun kv => (fs_lookup new kv.1).isNone
    match process_renames (stableSort renLe (rename_cands deleted added))
        deleted added changes with
    | none => none
    | some (changes2, deleted2, added2) =>
      some (stableSort (changeLe dp)
        (changes2 ++ deleted2.map (fun kv => delete_content kv.1 kv.2)
          ++ added2.map fun kv => add_content kv.1 kv.2))



/-- The structural invariant claimed of every emitted change: ModifyFile has
a non-unchanged line, AddFile lines all added, DeleteFile lines all deleted. -/
def diff_invariant (c : Change) : Bool :=
  match c with
  | .modifyFile _ lines => lines.any fun l => l.status != LineStatus.unchanged
  | .addFile _ lines _ => lines.all fun l => l.status == LineStatus.added
  | .deleteFile _ lines _ => lines.all fun l => l.status == LineStatus.deleted
  | _ => true

theorem all_deleted_map (xs : List String) :
    ((xs.map fun s => Line.mk (some s) none).all
      fun l => l.status == LineStatus.deleted) = true := by
  refine List.all_eq_true.mpr fun y hy => ?_
  rcases List.mem_map.mp hy with ⟨s, _, rfl⟩
  rfl

theorem all_added_map (xs : List String) :
    ((xs.map fun s => Line.mk none (some s)).all
      fun l => l.status == LineStatus.added) = true := by
  refine List.all_eq_true.mpr fun y hy => ?_
  rcases List.mem_map.mp hy with ⟨s, _, rfl⟩
  rfl

theorem delete_content_invariant (p : Path) (c : Content) :
    diff_invariant (delete_content p c) = true := by
  rcases c with ⟨d, e⟩ | dest
  · rcases d with ls | b
    · rcases ls with _ | ⟨x, xs⟩
      · rfl
      · exact all_deleted_map (x :: xs)
    · rfl
  · rfl

theorem add_content_invariant (p : Path) (c : Content) :
    diff_invariant (add_content p c) = true := by
  rcases c with ⟨d, e⟩ | dest
  · rcases d with ls | b
    · rcases ls with _ | ⟨x, xs⟩
      · rfl
      · exact all_added_map (x :: xs)
    · rfl
  · rfl

theorem mem_if_singleton {α : Type} {b : Bool} {c x : α}
    (h : c ∈ (if b = true then [x] else [])) : b = true ∧ c = x := by
  split at h
  · exact ⟨by assumption, List.mem_singleton.mp h⟩
  · simp at h


theorem diff_content_invariant (p : Path) (o n : Content) (cs : List Change)
    (h : diff_content p o n = some cs) : ∀ c ∈ cs, diff_invariant c = true := by
  intro c hc
  rcases o with ⟨od, oe⟩ | odest <;> rcases n with ⟨nd, ne2⟩ | ndest
  · simp only [diff_content] at h
    by_cases heq : content_is_equal od nd
    · rw [if_pos heq] at h
      obtain rfl : (if (oe != ne2) = true then [Change.changeMode p oe ne2] else []) = cs :=
        Option.some.inj h
      rcases mem_if_singleton hc with ⟨_, rfl⟩
      rfl
    · rw [if_neg heq] at h
      rcases od with ol | ob <;> rcases nd with nl | nb <;> dsimp only at h
      · rcases hdl : diff_lines ol nl with _ | lines
        · rw [hdl] at h
          simp at h
        · rw [hdl] at h
          dsimp only at h
          obtain rfl := Option.some.inj h
          rcases List.mem_append.mp hc with hm | hm
          · rcases mem_if_singleton hm with ⟨_, rfl⟩
            rfl
          · rcases mem_if_singleton hm with ⟨hany, rfl⟩
            exact hany
      · obtain rfl := Option.some.inj h
        rcases List.mem_cons.mp hc with rfl | hm
        · exact all_deleted_map ol
        · rcases List.mem_singleton.mp hm with rfl
          rfl
      · obtain rfl := Option.some.inj h
        rcases List.mem_cons.mp hc with rfl | hm
        · rfl
        · rcases List.mem_singleton.mp hm with rfl
          exact all_added_map nl
      · obtain rfl := Option.some.inj h
        rcases List.mem_append.mp hc with hm | hm
        · rcases mem_if_singleton hm with ⟨_, rfl⟩
          rfl
        · rcases List.mem_singleton.mp hm with rfl
          rfl
  · obtain rfl := Option.some.inj h
    rcases List.mem_cons.mp hc with rfl | hm
    · exact delete_content_invariant p (Content.file od oe)
    · rcases List.mem_singleton.mp hm with rfl
      exact add_content_invariant p (Content.symlink ndest)
  · obtain rfl := Option.some.inj h
    rcases List.mem_cons.mp hc with rfl | hm
    · exact delete_content_invariant p (Content.symlink odest)
    · rcases List.mem_singleton.mp hm with rfl
      exact add_content_invariant p (Content.file nd ne2)
  · simp only [diff_content] at h
    obtain rfl := Option.some.inj h
    rcases mem_if_singleton hc with ⟨_, rfl⟩
    rfl


theorem diff_new_loop_invariant (old : FS) :
    ∀ (rest : List (Path × Content)) (changes : List Change) (added : FS)
      (out : List Change × FS),
      (∀ c ∈ changes, diff_invariant c = true) →
      diff_new_loop old rest changes added = some out →
      ∀ c ∈ out.1, diff_invariant c = true := by
  intro rest
  induction rest with
  | nil =>
    intro changes added out hinv h
    obtain rfl := Option.some.inj h
    exact hinv
  | cons kv rest ih =>
    intro changes added out hinv h
    rcases kv with ⟨p, nc⟩
    rw [diff_new_loop] at h
    rcases hol : fs_lookup old p with _ | oc
    · rw [hol] at h
      dsimp only at h
      exact ih changes (added ++ [(p, nc)]) out hinv h
    · rw [hol] at h
      dsimp only at h
      rcases hdc : diff_content p oc nc with _ | cs
      · rw [hdc] at h
        simp at h
      · rw [hdc] at h
        dsimp only at h
        refine ih (changes ++ cs) added out ?_ h
        intro c hc
        rcases List.mem_append.mp hc with hm | hm
        · exact hinv c hm
        · exact diff_content_invariant p oc nc cs hdc c hm

theorem process_renames_invariant :
    ∀ (cands : List (Sim × Path × Path)) (deleted added : FS)
      (changes : List Change) (out : List Change × FS × FS),
      (∀ c ∈ changes, diff_invariant c = true) →
      process_renames cands deleted added changes = some out →
      ∀ c ∈ out.1, diff_invariant c = true := by
  intro cands
  induction cands with
  | nil =>
    intro deleted added changes out hinv h
    obtain rfl := Option.some.inj h
    exact hinv
  | cons cand rest ih =>
    intro deleted added changes out hinv h
    rw [process_renames] at h
    rcases hdel : fs_lookup deleted cand.2.1 with _ | oc <;> rw [hdel] at h
    · dsimp only at h
      exact ih deleted added changes out hinv h
    · rcases hadd : fs_lookup added cand.2.2 with _ | nc <;> rw [hadd] at h
      · dsimp only at h
        exact ih deleted added changes out hinv h
      · dsimp only at h
        rcases hdc : diff_content cand.2.1 oc nc with _ | cs <;> rw [hdc] at h
        · simp at h
        · dsimp only at h
          refine ih _ _ _ out ?_ h
          intro c hc
          rcases List.mem_append.mp hc with hm | hm
          · exact hinv c hm
          · rcases List.mem_cons.mp hm with rfl | hm2
            · rfl
            · exact diff_content_invariant cand.2.1 oc nc cs hdc c hm2

/-- C5: every change set the tree diff emits satisfies the structural
invariants: every emitted ModifyFile contains at least one line whose status
is not unchanged, every line of an emitted AddFile has status added, and
every line of an emitted DeleteFile has status deleted. -/
theorem c5_diff_change_invariants (dp : Path → Bool) (old new : FS)
    (changes : List Change) (h : diff_contents dp old new = some changes) :
    ∀ c ∈ changes, diff_invariant c = true := by
  intro c hc
  rw [diff_contents] at h
  rcases h1 : diff_new_loop old new [] [] with _ | ⟨cs1, added⟩ <;> rw [h1] at h
  · simp at h
  · dsimp only at h
    rcases h2 : process_renames
        (stableSort renLe (rename_cands
          (old.filter fun kv => (fs_lookup new kv.1).isNone) added))
        (old.filter fun kv => (fs_lookup new kv.1).isNone) added cs1
      with _ | ⟨cs2, deleted2, added2⟩ <;> rw [h2] at h
    · simp at h
    · dsimp only at h
      obtain rfl := Option.some.inj h
      have hmem := (stableSort_perm (changeLe dp) _).mem_iff.mp hc
      rcases List.mem_append.mp hmem with hm | hm
      · rcases List.mem_append.mp hm with hm2 | hm2
        · have hcs1 : ∀ c ∈ cs1, diff_invariant c = true :=
            diff_new_loop_invariant old new [] [] (cs1, added) (by simp) h1
          exact process_renames_invariant _ _ _ _ (cs2, deleted2, added2) hcs1 h2 c hm2
        · rcases List.mem_map.mp hm2 with ⟨kv, _, rfl⟩
          exact delete_content_invariant kv.1 kv.2
      · rcases List.mem_map.mp hm with ⟨kv, _, rfl⟩
        exact add_content_invariant kv.1 kv.2


/-- Witness for C5 at a concrete pair of trees: diffing a one-file tree whose
file changes from one line to another emits a ModifyFile with a non-unchanged
line, and the invariant checker accepts it. -/
theorem c5_diff_change_invariants_witness :
    diff_invariant (Change.modifyFile "a"
      [Line.mk (some "x") none, Line.mk none (some "y"),
        Line.mk (some "") (some "")]) = true :=
  c5_diff_change_invariants (fun _ => false)
    [("a", Content.file (FileData.text ["x", ""]) false)]
    [("a", Content.file (FileData.text ["y", ""]) false)]
    [Change.modifyFile "a"
      [Line.mk (some "x") none, Line.mk none (some "y"),
        Line.mk (some "") (some "")]]
    (by decide)
    (Change.modifyFile "a"
      [Line.mk (some "x") none, Line.mk none (some "y"),
        Line.mk (some "") (some "")])
    (List.mem_singleton.mpr rfl)


/-- A directory tree as apply_changes mutates it: regular files hold the
written bytes (code points standing in for UTF-8, exact on ASCII) and their
exec bit, symlinks hold their target.  Directories are elided: the tree maps
file paths to entries and mkdir calls only materialize parents.  The code
additionaly runs mkdir on the rename destination itself before renaming,
which on a real file system makes the rename raise; the model elides that
directory and performs the intended key move. -/
inductive Entry where
  | file (data : List Nat) (is_exec : Bool)
  | symlink (dest : Path)
deriving DecidableEq, Repr

/-- The file-system state apply_changes rewrites. -/
abbrev Tree := List (Path × Entry)

/-- Look up the entry at a path. -/
def tree_lookup (t : Tree) (p : Path) : Option Entry :=
  (t.find? fun kv => kv.1 == p).map Prod.snd

/-- unlink: remove the entry at a path. -/
def tree_erase (t : Tree) (p : Path) : Tree := t.filter fun kv => kv.1 != p

/-- Create or replace the entry at a path. -/
def tree_insert (t : Tree) (p : Path) (e : Entry) : Tree :=
  tree_erase t p ++ [(p, e)]

/-- Bytes of a string, code points standing in for UTF-8 (exact on ASCII). -/
def str_bytes (s : String) : List Nat := s.data.map Char.toNat

/-- The bytes a stored FileData renders to: text joins its lines with LF
(inverting split_lines), binary is its byte list. -/
def fileData_bytes : FileData → List Nat
  | .text lines => str_bytes (join_lines lines)
  | .binary b => b

/-- set_is_exec from change.py on the model tree: chmod the regular file at
the path; a missing target raises (none). -/
def set_is_exec (t : Tree) (p : Path) (e : Bool) : Option Tree :=
  match tree_lookup t p with
  | some (.file d _) => some (tree_insert t p (.file d e))
  | _ => none

/-- Writing a file with open(w): truncating an existing regular file keeps
its mode, a fresh file is created without the exec bit. -/
def tree_write_file (t : Tree) (p : Path) (data : List Nat) : Tree :=
  match tree_lookup t p with
  | some (.file _ e) => tree_insert t p (.file data e)
  | _ => tree_insert t p (.file data false)

/-- apply_change from change.py on the model tree.  The source creates a
fresh empty renames dict for the single change being applied (nothing is
carried across changes by the apply_changes loop and nothing is ever put in
it), so renames.get is modelled on the literal empty table.  Failing
filesystem calls are none: renaming or deleting a missing path, symlink_to
onto an existing entry (FileExistsError), chmod of a missing file. -/
def apply_change (root : Tree) (change : Change) : Option Tree :=
  let renames : RenameMap := []
  match change with
  | .rename old_path new_path =>
    match tree_lookup root old_path with
    | some e => some (tree_insert (tree_erase root old_path) new_path e)
    | none => none
  | .changeMode path _ is_exec =>
    set_is_exec root (RenameMap.get renames path) is_exec
  | .addFile path lines is_exec =>
    let p := RenameMap.get renames path
    let t2 := tree_write_file root p (str_bytes (write_lines lines))
    if is_exec then set_is_exec t2 p true else some t2
  | .modifyFile path lines =>
    some (tree_write_file root (RenameMap.get renames path)
      (str_bytes (write_lines lines)))
  | .addBinary path content is_exec =>
    let p := RenameMap.get renames path
    let t2 := tree_write_file root p (fileData_bytes content)
    if is_exec then set_is_exec t2 p true else some t2
  | .modifyBinary path _ content =>
    some (tree_write_file root (RenameMap.get renames path)
      (fileData_bytes content))
  | .addSymlink path dest =>
    let p := RenameMap.get renames path
    match tree_lookup root p with
    | none => some (tree_insert root p (.symlink dest))
    | some _ => none
  | .modifySymlink path _ dest =>
    let p := RenameMap.get renames path
    match tree_lookup root p with
    | none => some (tree_insert root p (.symlink dest))
    | some _ => none
  | .deleteFile path _ _ =>
    match tree_lookup root (RenameMap.get renames path) with
    | some _ => some (tree_erase root (RenameMap.get renames path))
    | none => none
  | .deleteBinary path _ _ =>
    match tree_lookup root (RenameMap.get renames path) with
    | some _ => some (tree_erase root (RenameMap.get renames path))
    | none => none
  | .deleteSymlink path _ =>
    match tree_lookup root (RenameMap.get renames path) with
    | some _ => some (tree_erase root (RenameMap.get renames path))
    | none => none

/-- apply_changes from change.py: apply each change in order, propagating
any raised error. -/
def apply_changes (root : Tree) (changes : List Change) : Option Tree :=
  changes.foldl (fun acc c => acc.bind fun t => apply_change t c) (some root)

/-- The model tree a Contents mapping denotes, files rendered to bytes. -/
def tree_of_fs (fs : FS) : Tree :=
  fs.map fun kv =>
    (kv.1, match kv.2 with
      | .file d e => Entry.file (fileData_bytes d) e
      | .symlink dest => Entry.symlink dest)

/-- Old tree of the C1 counterexample: one symlink at x. -/
def c1_old_fs : FS := [("x", Content.symlink "abcdef1")]

/-- New tree of the C1 counterexample: one symlink at y, similar target. -/
def c1_new_fs : FS := [("y", Content.symlink "abcdef2")]

/-- C1 fails: the differ pairs the two symlinks as a rename (target
similarity 6 of 7) and emits [Rename x y, ModifySymlink x t1 t2], recording
the modification at the old path; apply_change resolves paths through a
rename table that is created empty for every single change and never filled,
so after the rename has moved x to y the modify recreates a symlink at x,
and the applied tree keeps the old target at y plus a stray entry at x
instead of equalling the new tree. -/
theorem c1_apply_diff_diverges :
    diff_contents (fun _ => false) c1_old_fs c1_new_fs =
        some [Change.rename "x" "y",
          Change.modifySymlink "x" "abcdef1" "abcdef2"] ∧
      apply_changes (tree_of_fs c1_old_fs)
          [Change.rename "x" "y",
            Change.modifySymlink "x" "abcdef1" "abcdef2"] =
        some [("y", Entry.symlink "abcdef1"), ("x", Entry.symlink "abcdef2")] ∧
      tree_of_fs c1_new_fs = [("y", Entry.symlink "abcdef2")] ∧
      ([("y", Entry.symlink "abcdef1"), ("x", Entry.symlink "abcdef2")] : Tree) ≠
        [("y", Entry.symlink "abcdef2")] := by
  exact ⟨by decide, by decide, rfl, by decide⟩

end Jjdiff
